import Mathlib

/-!
# The assembler buffer of the Dart VM (`runtime/vm/assembler.h`)

A shallow embedding of `ExternalLabel`, `AssemblerFixup` and `AssemblerBuffer`, and of the
members declared in the header whose bodies live elsewhere, as the specification describes
them.

Conventions of the embedding.

* `uword` values are addresses of bytes of the buffer's data area (or one past it), so no
  address computation of the buffer leaves the word range; they are natural numbers.
  `intptr_t` values are integers: `Size()` is the signed difference `cursor_ - contents_`
  and is negative when the cursor lies below the contents.
* A template argument `T` is represented by `sizeofT`, its `sizeof`, and a value of type `T`
  by the number whose `sizeofT` little-endian bytes are the object representation of the value.
* Memory is a map from addresses to bytes. `*reinterpret_cast<T*>(a) = v` is `writeBytes`
  and `*reinterpret_cast<T*>(a)` is `readBytes`.
* `ASSERT(c)` is checked: an operation whose assertion fails yields `none`.
* `debug` selects between the two branches of `#if defined(DEBUG)`.
* Pointers to zone-allocated fixups are `Option Nat` (`none` is `NULL`); the fixup objects
  live in `zone`.
-/

namespace dart

/-- The store `*reinterpret_cast<T*>(addr) = value` for a `T` of `sizeofT` bytes. -/
def writeBytes (mem : Nat → Nat) (addr sizeofT value : Nat) : Nat → Nat :=
  fun a => if addr ≤ a ∧ a < addr + sizeofT then (value / 256 ^ (a - addr)) % 256 else mem a

/-- The load `*reinterpret_cast<T*>(addr)` for a `T` of `sizeofT` bytes. -/
def readBytes (mem : Nat → Nat) (addr : Nat) : Nat → Nat
  | 0 => 0
  | n + 1 => mem addr + 256 * readBytes mem (addr + 1) n

/-- Modelled from the spec: `class MemoryRegion` is only forward-declared here
(`vm/memory_region.h` is not among the sources). "An opaque handle describing a base address
and byte length into which `finalizeInstructions` copies bytes and applies fixups"; `bytes`
are the bytes of the region, by offset from its base address. -/
structure MemoryRegion where
  pointer : Nat
  size : Int
  bytes : Nat → Nat

/-- An object of `class AssemblerFixup`: the private fields `previous_` and `position_`, and
the two pure virtual methods of the object's dynamic class, `Process(region, position)` as the
change it makes to the region and `IsPointerOffset()` as its result. -/
structure AssemblerFixup where
  previous_ : Option Nat
  position_ : Int
  Process : MemoryRegion → Int → MemoryRegion
  IsPointerOffset : Bool

namespace AssemblerFixup

def previous (f : AssemblerFixup) : Option Nat := f.previous_

def set_previous (f : AssemblerFixup) (previous : Option Nat) : AssemblerFixup :=
  { f with previous_ := previous }

def position (f : AssemblerFixup) : Int := f.position_

def set_position (f : AssemblerFixup) (position : Int) : AssemblerFixup :=
  { f with position_ := position }

end AssemblerFixup

/-- Fields of `class AssemblerBuffer`, together with the memory its addresses point into and
the zone holding the fixup objects its chain points to. `has_ensured_capacity_` and
`fixups_processed_` exist in the debug configuration only. -/
structure AssemblerBuffer where
  contents_ : Nat
  cursor_ : Nat
  limit_ : Nat
  fixup_ : Option Nat
  pointer_offsets_ : List Int
  fixups_processed_ : Bool
  has_ensured_capacity_ : Bool
  memory : Nat → Nat
  zone : Nat → AssemblerFixup

namespace AssemblerBuffer

def kMinimumGap : Int := 32

/-- `intptr_t Size() const { return cursor_ - contents_; }` -/
def Size (b : AssemblerBuffer) : Int := (b.cursor_ : Int) - (b.contents_ : Int)

def contents (b : AssemblerBuffer) : Nat := b.contents_

def cursor (b : AssemblerBuffer) : Nat := b.cursor_

def limit (b : AssemblerBuffer) : Nat := b.limit_

/-- `HasEnsuredCapacity()`: the flag in the debug configuration, the dummy `true` otherwise. -/
def HasEnsuredCapacity (debug : Bool) (b : AssemblerBuffer) : Bool :=
  if debug then b.has_ensured_capacity_ else true

/-- `template<typename T> void Emit(T value)` -/
def Emit (debug : Bool) (sizeofT value : Nat) (b : AssemblerBuffer) : Option AssemblerBuffer :=
  if HasEnsuredCapacity debug b = true then
    some { b with
      memory := writeBytes b.memory b.cursor_ sizeofT value
      cursor_ := b.cursor_ + sizeofT }
  else none

/-- `template<typename T> void Remit()` -/
def Remit (sizeofT : Nat) (b : AssemblerBuffer) : Option AssemblerBuffer :=
  if Size b ≥ (sizeofT : Int) then
    some { b with cursor_ := b.cursor_ - sizeofT }
  else none

/-- `template<typename T> T Load(intptr_t position)` -/
def Load (sizeofT : Nat) (position : Int) (b : AssemblerBuffer) : Option Nat :=
  if position ≥ 0 ∧ position ≤ Size b - (sizeofT : Int) then
    some (readBytes b.memory (b.contents_ + position.toNat) sizeofT)
  else none

/-- `template<typename T> void Store(intptr_t position, T value)` -/
def Store (sizeofT : Nat) (position : Int) (value : Nat) (b : AssemblerBuffer) :
    Option AssemblerBuffer :=
  if position ≥ 0 ∧ position ≤ Size b - (sizeofT : Int) then
    some { b with memory := writeBytes b.memory (b.contents_ + position.toNat) sizeofT value }
  else none

/-- `void EmitFixup(AssemblerFixup* fixup)` -/
def EmitFixup (fixup : Nat) (b : AssemblerBuffer) : AssemblerBuffer :=
  let z1 := Function.update b.zone fixup ((b.zone fixup).set_previous b.fixup_)
  let z2 := Function.update z1 fixup ((z1 fixup).set_position (Size b))
  { b with zone := z2, fixup_ := some fixup }

/-- `static uword ComputeLimit(uword data, intptr_t capacity)` -/
def ComputeLimit (data : Nat) (capacity : Int) : Nat :=
  ((data : Int) + capacity - kMinimumGap).toNat

/-- `intptr_t Capacity() const` -/
def Capacity (b : AssemblerBuffer) : Option Int :=
  if b.limit_ ≥ b.contents_ then some (((b.limit_ : Int) - (b.contents_ : Int)) + kMinimumGap)
  else none

/-- Constructor of the non-debug `class EnsureCapacity`:
`if (buffer->cursor() >= buffer->limit()) buffer->ExtendCapacity();`.
`ExtendCapacity` is the private method, declared in the header and defined elsewhere. -/
def EnsureCapacity (ExtendCapacity : AssemblerBuffer → AssemblerBuffer)
    (buffer : AssemblerBuffer) : AssemblerBuffer :=
  if cursor buffer ≥ limit buffer then ExtendCapacity buffer else buffer

/-- Modelled from the spec: `ExtendCapacity()` is declared in the header and its body is not
among the sources. "The buffer reallocates (doubling or similarly growing), copying existing
bytes to the new location and updating `contents`, `cursor`, `limit` accordingly";
`new_contents` is the address of the new allocation. -/
def ExtendCapacity (new_contents : Nat) (b : AssemblerBuffer) : AssemblerBuffer :=
  let old_size := Size b
  let new_capacity := 2 * (((b.limit_ : Int) - (b.contents_ : Int)) + kMinimumGap)
  { b with
    memory := fun a =>
      if new_contents ≤ a ∧ (a : Int) < (new_contents : Int) + old_size then
        b.memory (b.contents_ + (a - new_contents))
      else b.memory a
    contents_ := new_contents
    cursor_ := ((new_contents : Int) + old_size).toNat
    limit_ := ComputeLimit new_contents new_capacity }

/-- Modelled from the spec: the constructor `AssemblerBuffer()` is declared in the header and
its body is not among the sources. A fresh buffer over a data area of `capacity` bytes at
`data`: nothing written, the fixup chain "empty initially", no pointer offsets, fixups not
processed. -/
def new (data : Nat) (capacity : Int) (memory : Nat → Nat) (zone : Nat → AssemblerFixup) :
    AssemblerBuffer :=
  { contents_ := data
    cursor_ := data
    limit_ := ComputeLimit data capacity
    fixup_ := none
    pointer_offsets_ := []
    fixups_processed_ := false
    has_ensured_capacity_ := false
    memory := memory
    zone := zone }

/-- The fixups reached from pointer `p` by following `previous_` links up to `NULL` are
exactly `l`, in that order. -/
def IsChain (zone : Nat → AssemblerFixup) : Option Nat → List Nat → Prop
  | p, [] => p = none
  | p, f :: fs => p = some f ∧ IsChain zone (zone f).previous fs

/-- Modelled from the spec: `ProcessFixups(region)` is declared in the header and its body is
not among the sources. "Walk the fixup chain from `fixupHead` following `previous` links; for
each node, invoke `process(destinationRegion, node.position)`, then advance." The loop runs
for at most `fuel` nodes; the result is the region after the walk and the invocations of
`Process` made, in order, as pairs of fixup and position argument. -/
def ProcessFixupsLoop (zone : Nat → AssemblerFixup) :
    Nat → Option Nat → MemoryRegion → Option (MemoryRegion × List (Nat × Int))
  | _, none, region => some (region, [])
  | 0, some _, _ => none
  | fuel + 1, some f, region =>
    match ProcessFixupsLoop zone fuel (zone f).previous
        ((zone f).Process region (zone f).position) with
    | none => none
    | some (r, calls) => some (r, (f, (zone f).position) :: calls)

/-- Modelled from the spec: see `ProcessFixupsLoop`; the walk starts at `fixup_`. -/
def ProcessFixups (fuel : Nat) (region : MemoryRegion) (b : AssemblerBuffer) :
    Option (MemoryRegion × List (Nat × Int)) :=
  ProcessFixupsLoop b.zone fuel b.fixup_ region

/-- Modelled from the spec: `instructions.CopyFrom(0, from)` of the absent `MemoryRegion`,
for `from` the first `Size()` bytes at `contents()`. "Copy `size()` bytes from `contents` to
`destinationRegion` verbatim." -/
def CopyInstructions (instructions : MemoryRegion) (b : AssemblerBuffer) : MemoryRegion :=
  { instructions with
    bytes := fun i => if (i : Int) < Size b then b.memory (b.contents_ + i)
                      else instructions.bytes i }

/-- Modelled from the spec: `FinalizeInstructions(region)` is declared in the header and its
body is not among the sources. Steps 1 to 3 of the spec's finalization: copy, walk the chain,
"mark `fixupsProcessed = true` (debug-only guard against double finalization)". The
destination "must be at least `size()` bytes", and double processing of the fixups is
"asserted in debug builds". The result is the buffer, the region and the invocations of
`Process` made. -/
def FinalizeInstructions (debug : Bool) (fuel : Nat) (instructions : MemoryRegion)
    (b : AssemblerBuffer) : Option (AssemblerBuffer × MemoryRegion × List (Nat × Int)) :=
  if debug = true ∧ b.fixups_processed_ = true then none
  else if Size b ≤ instructions.size then
    match ProcessFixups fuel (CopyInstructions instructions b) b with
    | none => none
    | some (region, calls) =>
      some ({ b with fixups_processed_ := if debug then true else b.fixups_processed_ },
        region, calls)
  else none

/-- A call of one of the members for "emitting, loading, and storing". -/
inductive Call where
  | Emit (sizeofT value : Nat)
  | Remit (sizeofT : Nat)
  | Load (sizeofT : Nat) (position : Int)
  | Store (sizeofT : Nat) (position : Int) (value : Nat)

/-- The buffer after a call; `none` when the call fails its assertion. -/
def Call.run (debug : Bool) : Call → AssemblerBuffer → Option AssemblerBuffer
  | Call.Emit n v, b => AssemblerBuffer.Emit debug n v b
  | Call.Remit n, b => AssemblerBuffer.Remit n b
  | Call.Load n p, b => (AssemblerBuffer.Load n p b).map (fun _ => b)
  | Call.Store n p v, b => AssemblerBuffer.Store n p v b

/-- The call is an `Emit` or a `Store`. -/
def Call.isEmitOrStore : Call → Bool
  | Call.Emit _ _ => true
  | Call.Store _ _ _ => true
  | _ => false

/-- The buffer states along a sequence of calls: the state before the first call and the state
after each call; `none` when one of the calls fails its assertion. -/
def trace (debug : Bool) : List Call → AssemblerBuffer → Option (List AssemblerBuffer)
  | [], b => some [b]
  | c :: cs, b =>
    match c.run debug b with
    | none => none
    | some b1 =>
      match trace debug cs b1 with
      | none => none
      | some states => some (b :: states)

/-- The data-model invariant of the cursor: `contents_ ≤ cursor_ ≤ limit_ + kMinimumGap`. -/
def CursorInvariant (b : AssemblerBuffer) : Prop :=
  b.contents_ ≤ b.cursor_ ∧ (b.cursor_ : Int) ≤ (b.limit_ : Int) + kMinimumGap

/-- One `Emit<T>` of a run: the buffer before it, `sizeof(T)`, and the buffer after it. -/
structure EmitStep where
  before : AssemblerBuffer
  sizeofT : Nat
  after : AssemblerBuffer

/-- The bytes `[cursor_, cursor_ + sizeof(T))` the emit writes lie within
`[contents_, limit_ + kMinimumGap)`. -/
def EmitStep.WritesWithin (e : EmitStep) : Prop :=
  e.before.contents_ ≤ e.before.cursor_ ∧
  (e.before.cursor_ : Int) + (e.sizeofT : Int) ≤ (e.before.limit_ : Int) + kMinimumGap

/-- The emits of one instruction, each given by `sizeof(T)` and the value, in the non-debug
configuration; the result is the final buffer and the emits made. -/
def emitAll : List (Nat × Nat) → AssemblerBuffer → Option (AssemblerBuffer × List EmitStep)
  | [], b => some (b, [])
  | (n, v) :: rest, b =>
    match Emit false n v b with
    | none => none
    | some b1 =>
      match emitAll rest b1 with
      | none => none
      | some (b2, steps) => some (b2, { before := b, sizeofT := n, after := b1 } :: steps)

/-- The usage documented in the header, repeated for a list of instructions:
`AssemblerBuffer::EnsureCapacity ensured(&buffer); ... emit bytes for single instruction ...`,
in the non-debug configuration. -/
def emitInstructions (ExtendCapacity : AssemblerBuffer → AssemblerBuffer) :
    List (List (Nat × Nat)) → AssemblerBuffer → Option (AssemblerBuffer × List EmitStep)
  | [], b => some (b, [])
  | g :: gs, b =>
    match emitAll g (EnsureCapacity ExtendCapacity b) with
    | none => none
    | some (b1, steps) =>
      match emitInstructions ExtendCapacity gs b1 with
      | none => none
      | some (b2, steps2) => some (b2, steps ++ steps2)

/-- A zone whose fixup objects are all unattached and do nothing. -/
def idleZone : Nat → AssemblerFixup :=
  fun _ => { previous_ := none, position_ := 0, Process := fun r _ => r, IsPointerOffset := false }

/-- Memory filled with zero bytes. -/
def zeroMemory : Nat → Nat := fun _ => 0

/-- A zone with two attached fixups: fixup 2 at position 4, linked to fixup 1 at position 0,
which ends the chain. The `Process` of fixup `k` stores the byte `k` at its position. -/
def twoFixupZone : Nat → AssemblerFixup :=
  fun k =>
    { previous_ := if k = 2 then some 1 else none
      position_ := if k = 2 then 4 else 0
      Process := fun r position =>
        { r with bytes := fun i => if (i : Int) = position then k else r.bytes i }
      IsPointerOffset := false }

/-- A buffer holding 8 bytes whose fixup chain is fixup 2, then fixup 1. -/
def twoFixupBuffer : AssemblerBuffer :=
  { new 4096 4096 zeroMemory twoFixupZone with cursor_ := 4104, fixup_ := some 2 }

/-- A destination region of 16 zero bytes at address 8192. -/
def zeroRegion : MemoryRegion := { pointer := 8192, size := 16, bytes := fun _ => 0 }

/-- `const ZoneGrowableArray<intptr_t>& pointer_offsets() const`: `ASSERT(fixups_processed_)`
in the debug configuration only, then the list. -/
def pointer_offsets (debug : Bool) (b : AssemblerBuffer) : Option (List Int) :=
  if debug = true ∧ b.fixups_processed_ = false then none else some b.pointer_offsets_

/-- Modelled from the spec: `EmitObject(object)` is declared in the header and its body is not
among the sources. It "emits the object's address (or a placeholder) and unconditionally
appends `size()` (the position just written) to `pointerOffsets`". `object` is the address
emitted and `kWordSize`, a constant of the absent `vm/globals.h`, the width of a pointer. -/
def EmitObject (debug : Bool) (kWordSize object : Nat) (b : AssemblerBuffer) :
    Option AssemblerBuffer :=
  match Emit debug kWordSize object b with
  | none => none
  | some b1 => some { b1 with pointer_offsets_ := b1.pointer_offsets_ ++ [Size b] }

/-- Modelled from the spec: `CountPointerOffsets() const` is declared in the header and its
body is not among the sources. It "returns the number of currently attached fixups whose
`isPointerOffset()` is true, without mutating or consuming the chain". The walk visits at most
`fuel` fixups. -/
def CountPointerOffsetsLoop (zone : Nat → AssemblerFixup) : Nat → Option Nat → Option Int
  | _, none => some 0
  | 0, some _ => none
  | fuel + 1, some f =>
    match CountPointerOffsetsLoop zone fuel (zone f).previous with
    | none => none
    | some count => some (if (zone f).IsPointerOffset = true then count + 1 else count)

/-- Modelled from the spec: see `CountPointerOffsetsLoop`; the walk starts at `fixup_`. The
member is `const` and its only result is the count. -/
def CountPointerOffsets (fuel : Nat) (b : AssemblerBuffer) : Option Int :=
  CountPointerOffsetsLoop b.zone fuel b.fixup_

/-- The walk `for (f = p; f != NULL; f = f->previous())` over at most `fuel` fixups: the fixups
visited, in order; `none` when the fuel runs out before the empty link. -/
def walkChain (zone : Nat → AssemblerFixup) : Nat → Option Nat → Option (List Nat)
  | _, none => some []
  | 0, some _ => none
  | fuel + 1, some f =>
    match walkChain zone fuel (zone f).previous with
    | none => none
    | some visited => some (f :: visited)

/-- A call of a member whose body is in the header: one of the basic calls or `EmitFixup`. -/
inductive Op where
  | call (c : Call)
  | EmitFixup (fixup : Nat)

/-- The buffer after the call; `none` when the call fails its assertion. -/
def Op.run (debug : Bool) : Op → AssemblerBuffer → Option AssemblerBuffer
  | Op.call c, b => c.run debug b
  | Op.EmitFixup f, b => some (AssemblerBuffer.EmitFixup f b)

/-- The call is a `Remit`. -/
def Op.isRemit : Op → Bool
  | Op.call (Call.Remit _) => true
  | _ => false

/-- The buffer after a sequence of calls; `none` when one of them fails its assertion. -/
def runOps (debug : Bool) : List Op → AssemblerBuffer → Option AssemblerBuffer
  | [], b => some b
  | o :: os, b =>
    match o.run debug b with
    | none => none
    | some b1 => runOps debug os b1

/-- The fixups a sequence of calls attaches with `EmitFixup`, in the order of the calls. -/
def attached : List Op → List Nat
  | [] => []
  | Op.EmitFixup f :: os => f :: attached os
  | Op.call _ :: os => attached os

/-- A call of `EmitObject` or of a member whose body is in the header. -/
inductive Step where
  | op (o : Op)
  | EmitObject (object : Nat)

/-- The buffer after the call; `none` when the call fails its assertion. -/
def Step.run (debug : Bool) (kWordSize : Nat) : Step → AssemblerBuffer → Option AssemblerBuffer
  | Step.op o, b => o.run debug b
  | Step.EmitObject object, b => AssemblerBuffer.EmitObject debug kWordSize object b

/-- The call is a `Remit`. -/
def Step.isRemit : Step → Bool
  | Step.op o => o.isRemit
  | Step.EmitObject _ => false

/-- The buffer after a sequence of calls; `none` when one of them fails its assertion. -/
def runSteps (debug : Bool) (kWordSize : Nat) : List Step → AssemblerBuffer →
    Option AssemblerBuffer
  | [], b => some b
  | st :: sts, b =>
    match st.run debug kWordSize b with
    | none => none
    | some b1 => runSteps debug kWordSize sts b1

/-- The number of `EmitObject` calls of a sequence. -/
def countEmitObject : List Step → Nat
  | [] => 0
  | Step.EmitObject _ :: sts => countEmitObject sts + 1
  | Step.op _ :: sts => countEmitObject sts

/-- The values of `Size()` immediately before each `EmitObject` call of a sequence run from
`b`, in the order of the calls. -/
def sizesBeforeEmitObject (debug : Bool) (kWordSize : Nat) : List Step → AssemblerBuffer →
    List Int
  | [], _ => []
  | st :: sts, b =>
    match st.run debug kWordSize b with
    | none => []
    | some b1 =>
      match st with
      | Step.EmitObject _ => Size b :: sizesBeforeEmitObject debug kWordSize sts b1
      | Step.op _ => sizesBeforeEmitObject debug kWordSize sts b1

/-- A zone with three attached fixups, 3 linked to 2 linked to 1, of which 3 and 1 produce a
pointer offset. -/
def threeFixupZone : Nat → AssemblerFixup :=
  fun k =>
    { previous_ := if k = 3 then some 2 else if k = 2 then some 1 else none
      position_ := 4 * ((k : Int) - 1)
      Process := fun r _ => r
      IsPointerOffset := decide (k ≠ 2) }

/-- A buffer holding 12 bytes whose fixup chain is fixup 3, fixup 2, fixup 1. -/
def threeFixupBuffer : AssemblerBuffer :=
  { new 4096 4096 zeroMemory threeFixupZone with cursor_ := 4108, fixup_ := some 3 }

/-- `Process(region, position)` of a fixup whose relocation occupies `width` bytes mutates
only the bytes of its own slot, the offsets `[position, position + width)` of the region. -/
def MutatesOnlySlot (Process : MemoryRegion → Int → MemoryRegion) (position : Int)
    (width : Nat) : Prop :=
  ∀ r : MemoryRegion, (Process r position).pointer = r.pointer ∧
    (Process r position).size = r.size ∧
    ∀ i : Nat, ¬ (position ≤ (i : Int) ∧ (i : Int) < position + (width : Int)) →
      (Process r position).bytes i = r.bytes i

/-- The bytes `Process(region, position)` leaves in its own slot
`[position, position + width)` do not depend on the bytes the region holds in the slot
`[other, other + otherWidth)`. -/
def IgnoresSlot (Process : MemoryRegion → Int → MemoryRegion) (position : Int) (width : Nat)
    (other : Int) (otherWidth : Nat) : Prop :=
  ∀ r r1 : MemoryRegion, r.pointer = r1.pointer → r.size = r1.size →
    (∀ i : Nat, ¬ (other ≤ (i : Int) ∧ (i : Int) < other + (otherWidth : Int)) →
      r.bytes i = r1.bytes i) →
    ∀ i : Nat, position ≤ (i : Int) ∧ (i : Int) < position + (width : Int) →
      (Process r position).bytes i = (Process r1 position).bytes i

/-- A zone with two fixups whose relocations are 4 bytes wide: fixup 1 at position 0 and
fixup 2 at position `second`; the `Process` of fixup `k` stores the byte `k` in each of the 4
bytes of its slot. With `firstIs1` fixup 1 was attached first (the chain is 2, 1), otherwise
fixup 2 (the chain is 1, 2). -/
def patchingZone (firstIs1 : Bool) (second : Int) : Nat → AssemblerFixup :=
  fun k =>
    { previous_ :=
        if firstIs1 = true then (if k = 2 then some 1 else none)
        else (if k = 1 then some 2 else none)
      position_ := if k = 1 then 0 else second
      Process := fun r position =>
        { r with bytes := fun i =>
            if position ≤ (i : Int) ∧ (i : Int) < position + 4 then k else r.bytes i }
      IsPointerOffset := false }

/-- A buffer holding 8 zero bytes with the two fixups of `patchingZone` attached. -/
def patchingBuffer (firstIs1 : Bool) (second : Int) : AssemblerBuffer :=
  { new 4096 4096 zeroMemory (patchingZone firstIs1 second) with
    cursor_ := 4104
    fixup_ := if firstIs1 = true then some 2 else some 1 }

/-- A zone with two fixups whose relocations are 4 bytes wide: fixup 1 at position 0, whose
`Process` copies the 4 bytes that follow its slot into its slot, and fixup 2 at position 4,
whose `Process` stores the byte 7 in each of the 4 bytes of its slot. With `firstIs1` fixup 1
was attached first (the chain is 2, 1), otherwise fixup 2 (the chain is 1, 2). -/
def copyingZone (firstIs1 : Bool) : Nat → AssemblerFixup :=
  fun k =>
    { previous_ :=
        if firstIs1 = true then (if k = 2 then some 1 else none)
        else (if k = 1 then some 2 else none)
      position_ := if k = 1 then 0 else 4
      Process := fun r position =>
        { r with bytes := fun i =>
            if position ≤ (i : Int) ∧ (i : Int) < position + 4 then
              (if k = 1 then r.bytes (i + 4) else 7)
            else r.bytes i }
      IsPointerOffset := false }

/-- A buffer holding 8 zero bytes with the two fixups of `copyingZone` attached. -/
def copyingBuffer (firstIs1 : Bool) : AssemblerBuffer :=
  { new 4096 4096 zeroMemory (copyingZone firstIs1) with
    cursor_ := 4104
    fixup_ := if firstIs1 = true then some 2 else some 1 }

/-- The positions of the fixups `l` in buffer `b`: `Size()` is not negative and no position is
negative; when `strict`, moreover, no position exceeds `Size()` and the positions along `l` are
non-increasing. -/
def PositionsWithin (strict : Bool) (b : AssemblerBuffer) (l : List Nat) : Prop :=
  0 ≤ Size b ∧ (∀ f ∈ l, 0 ≤ (b.zone f).position) ∧
  (strict = true →
    (∀ f ∈ l, (b.zone f).position ≤ Size b) ∧
    (l.map (fun f => (b.zone f).position)).Pairwise (fun x y => x ≥ y))

end AssemblerBuffer

/-- Fields of `class ExternalLabel`: `const char* name_`, where `none` is `NULL` and `some s` a
pointer to the string `s`, and `const uword address_`. -/
structure ExternalLabel where
  name_ : Option String
  address_ : Nat

namespace ExternalLabel

/-- The constructor `ExternalLabel(const char* name, uword address)`, with its
`ASSERT(name != NULL)`. -/
def new (name : Option String) (address : Nat) : Option ExternalLabel :=
  if name ≠ none then some { name_ := name, address_ := address } else none

/-- `const char* name() const { return name_; }` -/
def name (l : ExternalLabel) : Option String := l.name_

/-- `bool is_resolved() const { return address_ != 0; }` -/
def is_resolved (l : ExternalLabel) : Bool := l.address_ != 0

/-- `uword address() const { ASSERT(is_resolved()); return address_; }` -/
def address (l : ExternalLabel) : Option Nat :=
  if is_resolved l = true then some l.address_ else none

end ExternalLabel

/-! ## Bytes -/

theorem readBytes_writeBytes_aux (mem : Nat → Nat) (addr n value : Nat) :
    ∀ m k, k + m ≤ n →
      readBytes (writeBytes mem addr n value) (addr + k) m = (value / 256 ^ k) % 256 ^ m := by
  intro m
  induction m with
  | zero => intro k _; simp [readBytes, Nat.mod_one]
  | succ m ih =>
    intro k hk
    have h1 : writeBytes mem addr n value (addr + k) = (value / 256 ^ k) % 256 := by
      have : addr ≤ addr + k ∧ addr + k < addr + n := ⟨by omega, by omega⟩
      simp [writeBytes, this]
    have h2 := ih (k + 1) (by omega)
    rw [readBytes, h1, Nat.add_assoc, h2]
    rw [pow_succ 256 k, ← Nat.div_div_eq_div_mul]
    generalize value / 256 ^ k = x
    rw [pow_succ' 256 m, Nat.mod_mul]

theorem readBytes_writeBytes (mem : Nat → Nat) (addr n value : Nat) :
    readBytes (writeBytes mem addr n value) addr n = value % 256 ^ n := by
  simpa using readBytes_writeBytes_aux mem addr n value n 0 (by omega)

theorem writeBytes_inside (mem : Nat → Nat) (addr n value a : Nat)
    (h : addr ≤ a ∧ a < addr + n) :
    writeBytes mem addr n value a = (value / 256 ^ (a - addr)) % 256 := by
  simp [writeBytes, h]

theorem writeBytes_outside (mem : Nat → Nat) (addr n value a : Nat)
    (h : a < addr ∨ addr + n ≤ a) : writeBytes mem addr n value a = mem a := by
  have : ¬ (addr ≤ a ∧ a < addr + n) := by omega
  simp [writeBytes, this]

theorem readBytes_congr (m1 m2 : Nat → Nat) :
    ∀ n addr, (∀ a, addr ≤ a → a < addr + n → m1 a = m2 a) →
      readBytes m1 addr n = readBytes m2 addr n := by
  intro n
  induction n with
  | zero => intro addr _; rfl
  | succ n ih =>
    intro addr h
    rw [readBytes, readBytes, h addr (by omega) (by omega),
      ih (addr + 1) (fun a h1 h2 => h a (by omega) (by omega))]

namespace AssemblerBuffer

/-! ## Emit, Remit, Load, Store -/

/-- C1: in a buffer state with ensured capacity (`HasEnsuredCapacity()` holds and the cursor is
not below the contents), `Emit<T>(v)` succeeds, `Size()` grows by exactly `sizeof(T)`,
`Load<T>(oldSize)` then returns `v`, the `sizeof(T)` bytes at the old cursor are the bytes of
`v`, and `contents_`, `limit_`, the fixup chain and every byte outside the written range, in
particular every byte at an offset below the old size, are unchanged. -/
theorem Emit_writes_at_cursor (debug : Bool) (b : AssemblerBuffer) (sizeofT value : Nat)
    (hcap : HasEnsuredCapacity debug b = true) (hinv : b.contents_ ≤ b.cursor_)
    (hval : value < 256 ^ sizeofT) :
    ∃ b1, Emit debug sizeofT value b = some b1 ∧
      Size b1 = Size b + sizeofT ∧
      Load sizeofT (Size b) b1 = some value ∧
      b1.contents_ = b.contents_ ∧
      (∀ i : Nat, (i : Int) < Size b →
        b1.memory (b1.contents_ + i) = b.memory (b.contents_ + i)) ∧
      (∀ i : Nat, i < sizeofT → b1.memory (b.cursor_ + i) = (value / 256 ^ i) % 256) ∧
      (∀ a : Nat, a < b.cursor_ ∨ b.cursor_ + sizeofT ≤ a → b1.memory a = b.memory a) ∧
      b1.limit_ = b.limit_ ∧ b1.fixup_ = b.fixup_ ∧ b1.zone = b.zone := by
  refine ⟨{ b with
      memory := writeBytes b.memory b.cursor_ sizeofT value
      cursor_ := b.cursor_ + sizeofT }, by simp [Emit, hcap], ?_, ?_, rfl, ?_, ?_, ?_,
      rfl, rfl, rfl⟩
  · simp only [Size]; push_cast; ring
  · have hpos : Size b ≥ 0 ∧ Size b ≤ (b.cursor_ : Int) + sizeofT - b.contents_ - sizeofT := by
      simp only [Size]; omega
    have haddr : b.contents_ + (Size b).toNat = b.cursor_ := by
      simp only [Size]; omega
    simp only [Load, Size] at hpos ⊢
    push_cast
    rw [if_pos hpos]
    simp only [Size] at haddr
    rw [haddr, readBytes_writeBytes, Nat.mod_eq_of_lt hval]
  · intro i hi
    show writeBytes b.memory b.cursor_ sizeofT value (b.contents_ + i) = b.memory (b.contents_ + i)
    apply writeBytes_outside
    simp only [Size] at hi
    omega
  · intro i hi
    show writeBytes b.memory b.cursor_ sizeofT value (b.cursor_ + i) = (value / 256 ^ i) % 256
    rw [writeBytes_inside b.memory b.cursor_ sizeofT value (b.cursor_ + i) ⟨by omega, by omega⟩,
      Nat.add_sub_cancel_left]
  · intro a ha
    exact writeBytes_outside b.memory b.cursor_ sizeofT value a ha

/-- Witness for C1: emitting the 4-byte value `0xAABBCCDD` into an empty buffer. -/
theorem Emit_writes_at_cursor_witness :
    ∃ b1, Emit false 4 0xAABBCCDD (new 4096 4096 zeroMemory idleZone) = some b1 ∧
      Size b1 = 4 ∧ Load 4 0 b1 = some 0xAABBCCDD := by
  obtain ⟨b1, h1, h2, h3, _⟩ :=
    Emit_writes_at_cursor false (new 4096 4096 zeroMemory idleZone) 4 0xAABBCCDD rfl
      (by simp [new]) (by norm_num)
  refine ⟨b1, h1, ?_, ?_⟩
  · rw [h2]; simp [Size, new]
  · rw [← h3]; simp [Size, new]

/-- C2: for a valid position, `Store<T>(position, v)` followed by `Load<T>(position)`
returns `v`. -/
theorem Store_then_Load (b : AssemblerBuffer) (sizeofT : Nat) (position : Int) (value : Nat)
    (hpos : 0 ≤ position ∧ position ≤ Size b - sizeofT) (hval : value < 256 ^ sizeofT) :
    ∃ b1, Store sizeofT position value b = some b1 ∧ Load sizeofT position b1 = some value := by
  have hpos1 : position ≥ 0 ∧ position ≤ Size b - sizeofT := hpos
  refine ⟨{ b with
      memory := writeBytes b.memory (b.contents_ + position.toNat) sizeofT value },
    by simp only [Store]; rw [if_pos hpos1], ?_⟩
  simp only [Load, Size] at hpos1 ⊢
  rw [if_pos hpos1, readBytes_writeBytes, Nat.mod_eq_of_lt hval]

/-- Witness for C2: a 2-byte store at offset 1 of a buffer holding 4 bytes. -/
theorem Store_then_Load_witness :
    ∃ b1, Store 2 1 0xBEEF { new 4096 4096 zeroMemory idleZone with cursor_ := 4100 } = some b1 ∧
      Load 2 1 b1 = some 0xBEEF :=
  Store_then_Load { new 4096 4096 zeroMemory idleZone with cursor_ := 4100 } 2 1 0xBEEF
    (by simp [Size, new]) (by norm_num)

/-- C3: `Load<T>(position)` and `Store<T>(position, value)` pass their assertion exactly when
`0 ≤ position ≤ Size() - sizeof(T)`, the bound being a signed number; an accepted access lies
in the offsets `[0, Size())`, so an accepted store changes no byte outside
`[contents_, cursor_)` and an accepted load depends on no byte outside it; when
`Size() < sizeof(T)` every position is rejected. -/
theorem Load_Store_assertion (b : AssemblerBuffer) (sizeofT : Nat) (position : Int)
    (value : Nat) :
    ((Load sizeofT position b).isSome = true ↔ 0 ≤ position ∧ position ≤ Size b - sizeofT) ∧
    ((Store sizeofT position value b).isSome = true ↔
      0 ≤ position ∧ position ≤ Size b - sizeofT) ∧
    ((Load sizeofT position b).isSome = true →
      0 ≤ position ∧ position + sizeofT ≤ Size b ∧
      ∀ m : Nat → Nat, (∀ a, b.contents_ ≤ a → a < b.cursor_ → m a = b.memory a) →
        Load sizeofT position { b with memory := m } = Load sizeofT position b) ∧
    (∀ b1, Store sizeofT position value b = some b1 →
      0 ≤ position ∧ position + sizeofT ≤ Size b ∧
      ∀ a, a < b.contents_ ∨ b.cursor_ ≤ a → b1.memory a = b.memory a) ∧
    (Size b < sizeofT →
      ∀ p : Int, Load sizeofT p b = none ∧ Store sizeofT p value b = none) := by
  refine ⟨?_, ?_, ?_, ?_, ?_⟩
  · by_cases h : position ≥ 0 ∧ position ≤ Size b - sizeofT
    · simp only [Load, if_pos h, Option.isSome_some, true_iff]; exact h
    · simp only [Load, if_neg h, Option.isSome_none]
      exact ⟨fun hh => (by cases hh), fun h1 => absurd h1 h⟩
  · by_cases h : position ≥ 0 ∧ position ≤ Size b - sizeofT
    · simp only [Store, if_pos h, Option.isSome_some, true_iff]; exact h
    · simp only [Store, if_neg h, Option.isSome_none]
      exact ⟨fun hh => (by cases hh), fun h1 => absurd h1 h⟩
  · intro hsome
    by_cases h : position ≥ 0 ∧ position ≤ Size b - sizeofT
    · refine ⟨h.1, by omega, ?_⟩
      intro m hm
      have h1 : position ≥ 0 ∧
          position ≤ Size { b with memory := m } - sizeofT := h
      simp only [Load, if_pos h, if_pos h1, Option.some.injEq]
      apply readBytes_congr
      intro a ha1 ha2
      apply hm a (by omega)
      simp only [Size] at h
      omega
    · simp [Load, if_neg h] at hsome
  · intro b1 hb1
    by_cases h : position ≥ 0 ∧ position ≤ Size b - sizeofT
    · simp only [Store, if_pos h, Option.some.injEq] at hb1
      subst hb1
      refine ⟨h.1, by omega, ?_⟩
      intro a ha
      show writeBytes b.memory (b.contents_ + position.toNat) sizeofT value a = b.memory a
      apply writeBytes_outside
      simp only [Size] at h
      omega
    · simp [Store, if_neg h] at hb1
  · intro hsize p
    have h : ¬ (p ≥ 0 ∧ p ≤ Size b - sizeofT) := by omega
    simp [Load, Store, if_neg h]

/-- C4: `Remit<T>()` passes its assertion exactly when `Size() ≥ sizeof(T)`; it then lowers
`Size()` by exactly `sizeof(T)`, leaves it non-negative (the cursor not below the contents)
and leaves `contents_`, `limit_`, the fixup chain and the stored bytes unchanged; with fewer
than `sizeof(T)` bytes written the assertion fails and no state with a moved cursor results. -/
theorem Remit_rewinds (b : AssemblerBuffer) (sizeofT : Nat) :
    ((Remit sizeofT b).isSome = true ↔ Size b ≥ sizeofT) ∧
    (∀ b1, Remit sizeofT b = some b1 →
      Size b1 = Size b - sizeofT ∧ Size b1 ≥ 0 ∧ b1.contents_ ≤ b1.cursor_ ∧
      b1.contents_ = b.contents_ ∧ b1.limit_ = b.limit_ ∧ b1.fixup_ = b.fixup_ ∧
      b1.zone = b.zone ∧ b1.memory = b.memory ∧
      b1.pointer_offsets_ = b.pointer_offsets_) ∧
    (Size b < sizeofT → Remit sizeofT b = none) := by
  refine ⟨?_, ?_, ?_⟩
  · by_cases h : Size b ≥ (sizeofT : Int)
    · simp only [Remit, if_pos h, Option.isSome_some, true_iff]; exact h
    · simp only [Remit, if_neg h, Option.isSome_none]
      exact ⟨fun hh => (by cases hh), fun h1 => absurd h1 h⟩
  · intro b1 hb1
    by_cases h : Size b ≥ (sizeofT : Int)
    · simp only [Remit, if_pos h, Option.some.injEq] at hb1
      subst hb1
      simp only [Size] at h
      refine ⟨?_, ?_, ?_, rfl, rfl, rfl, rfl, rfl, rfl⟩
      · simp only [Size]; omega
      · simp only [Size]; omega
      · show b.contents_ ≤ b.cursor_ - sizeofT
        omega
    · simp [Remit, if_neg h] at hb1
  · intro hsize
    have h : ¬ (Size b ≥ (sizeofT : Int)) := by omega
    simp [Remit, if_neg h]

/-! ## The cursor along sequences of calls -/

theorem Emit_Size (debug : Bool) (n v : Nat) (s s1 : AssemblerBuffer)
    (h : Emit debug n v s = some s1) : Size s1 = Size s + n := by
  by_cases hc : HasEnsuredCapacity debug s = true
  · simp only [Emit, if_pos hc, Option.some.injEq] at h
    subst h
    simp only [Size]; push_cast; ring
  · simp [Emit, if_neg hc] at h

theorem Store_Size (n : Nat) (p : Int) (v : Nat) (s s1 : AssemblerBuffer)
    (h : Store n p v s = some s1) : Size s1 = Size s := by
  by_cases hc : p ≥ 0 ∧ p ≤ Size s - n
  · simp only [Store, if_pos hc, Option.some.injEq] at h
    subst h
    rfl
  · simp [Store, if_neg hc] at h

theorem Remit_Size (n : Nat) (s s1 : AssemblerBuffer)
    (h : Remit n s = some s1) : Size s1 = Size s - n := by
  by_cases hc : Size s ≥ (n : Int)
  · simp only [Remit, if_pos hc, Option.some.injEq] at h
    subst h
    simp only [Size] at hc ⊢
    omega
  · simp [Remit, if_neg hc] at h

theorem Load_run (debug : Bool) (n : Nat) (p : Int) (s s1 : AssemblerBuffer)
    (h : (Call.Load n p).run debug s = some s1) : s1 = s := by
  simp only [Call.run, Option.map_eq_some'] at h
  obtain ⟨_, _, h2⟩ := h
  exact h2.symm

theorem run_Size_le (debug : Bool) (c : Call) (s s1 : AssemblerBuffer)
    (hc : c.isEmitOrStore = true) (h : c.run debug s = some s1) : Size s ≤ Size s1 := by
  cases c with
  | Emit n v => have := Emit_Size debug n v s s1 h; omega
  | Store n p v => have := Store_Size n p v s s1 h; omega
  | Remit n => simp [Call.isEmitOrStore] at hc
  | Load n p => simp [Call.isEmitOrStore] at hc

theorem trace_Size_le (debug : Bool) :
    ∀ (calls : List Call) (b : AssemblerBuffer), (∀ c ∈ calls, c.isEmitOrStore = true) →
      (trace debug calls b).isSome = true →
      ∃ states, trace debug calls b = some states ∧ states.length = calls.length + 1 ∧
        (∀ s ∈ states, Size b ≤ Size s) ∧ (states.map Size).Pairwise (fun x y => x ≤ y) := by
  intro calls
  induction calls with
  | nil =>
    intro b _ _
    exact ⟨[b], rfl, rfl, by simp, by simp⟩
  | cons c cs ih =>
    intro b hcalls hrun
    cases hstep : c.run debug b with
    | none => simp [trace, hstep] at hrun
    | some b1 =>
      have hle : Size b ≤ Size b1 :=
        run_Size_le debug c b b1 (hcalls c (List.mem_cons_self c cs)) hstep
      cases hrest : trace debug cs b1 with
      | none => simp [trace, hstep, hrest] at hrun
      | some states =>
        obtain ⟨states1, h1, h2, h3, h4⟩ :=
          ih b1 (fun c1 hc1 => hcalls c1 (List.mem_cons_of_mem c hc1)) (by simp [hrest])
        rw [hrest, Option.some.injEq] at h1
        subst h1
        refine ⟨b :: states, by simp [trace, hstep, hrest], by simp [h2], ?_, ?_⟩
        · intro s hs
          rcases List.mem_cons.1 hs with rfl | hs1
          · exact le_refl _
          · exact le_trans hle (h3 s hs1)
        · rw [List.map_cons, List.pairwise_cons]
          refine ⟨?_, h4⟩
          intro x hx
          obtain ⟨s, hs, rfl⟩ := List.mem_map.1 hx
          exact le_trans hle (h3 s hs)

/-- C5: along every sequence of `Emit` and `Store` calls whose assertions pass, the values of
`Size()` before the first call and after each call are non-decreasing; `Store` leaves `Size()`
unchanged, `Emit<T>` adds `sizeof(T)`, `Load` and `EmitFixup` leave `Size()` as it is, and a
call that lowers `Size()` is a `Remit<T>`, which lowers it by exactly `sizeof(T)`. -/
theorem Size_monotonic (debug : Bool) (calls : List Call) (b : AssemblerBuffer)
    (hcalls : ∀ c ∈ calls, c.isEmitOrStore = true)
    (hrun : (trace debug calls b).isSome = true) :
    (∃ states, trace debug calls b = some states ∧ states.length = calls.length + 1 ∧
      (states.map Size).Pairwise (fun x y => x ≤ y)) ∧
    (∀ n p v s s1, Store n p v s = some s1 → Size s1 = Size s) ∧
    (∀ n v s s1, Emit debug n v s = some s1 → Size s1 = Size s + n) ∧
    (∀ n p s s1, (Call.Load n p).run debug s = some s1 → s1 = s) ∧
    (∀ f s, Size (EmitFixup f s) = Size s) ∧
    (∀ n s s1, Remit n s = some s1 → Size s1 = Size s - n) ∧
    (∀ c s s1, c.run debug s = some s1 → Size s1 < Size s → ∃ n, c = Call.Remit n) := by
  refine ⟨?_, Store_Size, Emit_Size debug, Load_run debug, fun _ _ => rfl, Remit_Size, ?_⟩
  · obtain ⟨states, h1, h2, _, h4⟩ := trace_Size_le debug calls b hcalls hrun
    exact ⟨states, h1, h2, h4⟩
  · intro c s s1 h hlt
    cases c with
    | Emit n v => have := Emit_Size debug n v s s1 h; omega
    | Store n p v => have := Store_Size n p v s s1 h; omega
    | Remit n => exact ⟨n, rfl⟩
    | Load n p => have := Load_run debug n p s s1 h; subst this; omega

/-- Witness for C5: two emits with a store in between, from an empty buffer. -/
theorem Size_monotonic_witness :
    ∃ states,
      trace false [Call.Emit 4 0xAABBCCDD, Call.Store 2 1 7, Call.Emit 1 9]
        (new 4096 4096 zeroMemory idleZone) = some states ∧
      states.length = 4 ∧ (states.map Size).Pairwise (fun x y => x ≤ y) :=
  (Size_monotonic false [Call.Emit 4 0xAABBCCDD, Call.Store 2 1 7, Call.Emit 1 9]
    (new 4096 4096 zeroMemory idleZone) (by decide) (by decide)).1

/-! ## The fixup chain -/

theorem IsChain_congr (z1 z2 : Nat → AssemblerFixup) :
    ∀ (l : List Nat) (p : Option Nat), (∀ g ∈ l, z2 g = z1 g) → IsChain z1 p l →
      IsChain z2 p l := by
  intro l
  induction l with
  | nil => intro p _ h; exact h
  | cons f fs ih =>
    intro p hz h
    refine ⟨h.1, ?_⟩
    rw [hz f (List.mem_cons_self f fs)]
    exact ih _ (fun g hg => hz g (List.mem_cons_of_mem f hg)) h.2

/-- C6: `EmitFixup(f)` sets `f.position` to the current `Size()`, `f.previous` to the previous
chain head and makes `f` the chain head; `Size()`, the bytes, `contents_`, `cursor_`, `limit_`,
the pointer offsets, the virtual methods of `f` and every fixup object other than `f` are
unchanged; and when `f` is not among the fixups `l` already in the chain, the chain becomes
`f :: l` with the fields of every fixup of `l` unchanged. -/
theorem EmitFixup_links (b : AssemblerBuffer) (fixup : Nat) :
    ((EmitFixup fixup b).zone fixup).position = Size b ∧
    ((EmitFixup fixup b).zone fixup).previous = b.fixup_ ∧
    (EmitFixup fixup b).fixup_ = some fixup ∧
    Size (EmitFixup fixup b) = Size b ∧
    (EmitFixup fixup b).memory = b.memory ∧
    (EmitFixup fixup b).contents_ = b.contents_ ∧
    (EmitFixup fixup b).cursor_ = b.cursor_ ∧
    (EmitFixup fixup b).limit_ = b.limit_ ∧
    (EmitFixup fixup b).pointer_offsets_ = b.pointer_offsets_ ∧
    ((EmitFixup fixup b).zone fixup).Process = (b.zone fixup).Process ∧
    ((EmitFixup fixup b).zone fixup).IsPointerOffset = (b.zone fixup).IsPointerOffset ∧
    (∀ g, g ≠ fixup → (EmitFixup fixup b).zone g = b.zone g) ∧
    (∀ l, IsChain b.zone b.fixup_ l → fixup ∉ l →
      IsChain (EmitFixup fixup b).zone (EmitFixup fixup b).fixup_ (fixup :: l) ∧
      ∀ g ∈ l, (EmitFixup fixup b).zone g = b.zone g) := by
  have hother : ∀ g, g ≠ fixup → (EmitFixup fixup b).zone g = b.zone g := by
    intro g hg
    simp [EmitFixup, Function.update_noteq hg]
  have hprev : ((EmitFixup fixup b).zone fixup).previous = b.fixup_ := by
    simp [EmitFixup, AssemblerFixup.previous, AssemblerFixup.set_previous,
      AssemblerFixup.set_position]
  refine ⟨?_, hprev, rfl, rfl, rfl, rfl, rfl, rfl, rfl, ?_, ?_, hother, ?_⟩
  · simp [EmitFixup, AssemblerFixup.position, AssemblerFixup.set_position]
  · simp [EmitFixup, AssemblerFixup.set_previous, AssemblerFixup.set_position]
  · simp [EmitFixup, AssemblerFixup.set_previous, AssemblerFixup.set_position]
  · intro l hl hnot
    have hzone : ∀ g ∈ l, (EmitFixup fixup b).zone g = b.zone g :=
      fun g hg => hother g (fun h => hnot (h ▸ hg))
    refine ⟨⟨rfl, ?_⟩, hzone⟩
    rw [hprev]
    exact IsChain_congr b.zone _ l _ hzone hl

/-! ## Capacity -/

theorem emitAll_within :
    ∀ (g : List (Nat × Nat)) (s : AssemblerBuffer), s.contents_ ≤ s.cursor_ →
      (s.cursor_ : Int) + ((g.map Prod.fst).sum : Nat) ≤ (s.limit_ : Int) + kMinimumGap →
      ∃ s1 steps, emitAll g s = some (s1, steps) ∧ CursorInvariant s1 ∧
        steps.length = g.length ∧
        ∀ e ∈ steps, e.WritesWithin ∧ CursorInvariant e.after ∧
          ∀ a : Nat, a < e.before.contents_ ∨ (e.before.limit_ : Int) + kMinimumGap ≤ a →
            e.after.memory a = e.before.memory a := by
  intro g
  induction g with
  | nil =>
    intro s h1 h2
    refine ⟨s, [], rfl, ⟨h1, ?_⟩, rfl, by simp⟩
    simpa using h2
  | cons nv rest ih =>
    intro s h1 h2
    obtain ⟨n, v⟩ := nv
    simp only [List.map_cons, List.sum_cons] at h2
    rw [Nat.cast_add] at h2
    have hnn : (0 : Int) ≤ ((rest.map Prod.fst).sum : Nat) := Int.ofNat_nonneg _
    obtain ⟨s2, steps, h3, h4, h5, h6⟩ :=
      ih { s with memory := writeBytes s.memory s.cursor_ n v, cursor_ := s.cursor_ + n }
        (show s.contents_ ≤ s.cursor_ + n by omega)
        (show ((s.cursor_ + n : Nat) : Int) + ((rest.map Prod.fst).sum : Nat) ≤
          (s.limit_ : Int) + kMinimumGap by rw [Nat.cast_add]; omega)
    refine ⟨s2, EmitStep.mk s n
      { s with memory := writeBytes s.memory s.cursor_ n v, cursor_ := s.cursor_ + n } :: steps,
      ?_, h4, by simp [h5], ?_⟩
    · simp only [emitAll, Emit, HasEnsuredCapacity]
      simp [h3]
    · intro e he
      rcases List.mem_cons.1 he with rfl | he1
      · refine ⟨⟨h1, ?_⟩, ⟨?_, ?_⟩, ?_⟩
        · show (s.cursor_ : Int) + (n : Int) ≤ (s.limit_ : Int) + kMinimumGap
          omega
        · show s.contents_ ≤ s.cursor_ + n
          omega
        · show ((s.cursor_ + n : Nat) : Int) ≤ (s.limit_ : Int) + kMinimumGap
          rw [Nat.cast_add]; omega
        · intro a ha
          show writeBytes s.memory s.cursor_ n v a = s.memory a
          apply writeBytes_outside
          have ha1 : a < s.contents_ ∨ (s.limit_ : Int) + kMinimumGap ≤ a := ha
          omega
      · exact h6 e he1

/-- C7: from a state with `contents_ ≤ cursor_ ≤ limit_ + kMinimumGap`, for every sequence of
instructions each preceded by the `EnsureCapacity` check and emitting at most `kMinimumGap`
bytes, with `ExtendCapacity` leaving the cursor at or above the contents and below the limit,
every `Emit` succeeds, writes only within `[contents_, limit_ + kMinimumGap)` and leaves the
invariant true. -/
theorem capacity_safety (ext : AssemblerBuffer → AssemblerBuffer)
    (groups : List (List (Nat × Nat))) (b : AssemblerBuffer)
    (hext : ∀ s : AssemblerBuffer, s.contents_ ≤ s.cursor_ → s.limit_ ≤ s.cursor_ →
      (ext s).contents_ ≤ (ext s).cursor_ ∧ (ext s).cursor_ < (ext s).limit_)
    (hgroups : ∀ g ∈ groups, (((g.map Prod.fst).sum : Nat) : Int) ≤ kMinimumGap)
    (hinv : CursorInvariant b) :
    ∃ b1 steps, emitInstructions ext groups b = some (b1, steps) ∧ CursorInvariant b1 ∧
      steps.length = (groups.map List.length).sum ∧
      ∀ e ∈ steps, e.WritesWithin ∧ CursorInvariant e.after ∧
        ∀ a : Nat, a < e.before.contents_ ∨ (e.before.limit_ : Int) + kMinimumGap ≤ a →
          e.after.memory a = e.before.memory a := by
  induction groups generalizing b with
  | nil => exact ⟨b, [], rfl, hinv, rfl, by simp⟩
  | cons g gs ih =>
    have hg := hgroups g (List.mem_cons_self g gs)
    have hens : (EnsureCapacity ext b).contents_ ≤ (EnsureCapacity ext b).cursor_ ∧
        (EnsureCapacity ext b).cursor_ < (EnsureCapacity ext b).limit_ := by
      by_cases hc : cursor b ≥ limit b
      · simp only [EnsureCapacity, if_pos hc]
        exact hext b hinv.1 hc
      · simp only [EnsureCapacity, if_neg hc]
        exact ⟨hinv.1, by simpa [cursor, limit] using hc⟩
    obtain ⟨s1, steps, h1, h2, h3, h4⟩ :=
      emitAll_within g (EnsureCapacity ext b) hens.1 (by omega)
    obtain ⟨s2, steps2, k1, k2, k3, k4⟩ :=
      ih s1 (fun g1 hg1 => hgroups g1 (List.mem_cons_of_mem g hg1)) h2
    refine ⟨s2, steps ++ steps2, by simp [emitInstructions, h1, k1], k2,
      by simp [h3, k3], ?_⟩
    intro e he
    rcases List.mem_append.1 he with he1 | he2
    · exact h4 e he1
    · exact k4 e he2

theorem ExtendCapacity_grows (new_contents : Nat) (b : AssemblerBuffer)
    (hlimit : b.contents_ < b.limit_) (hinv : CursorInvariant b) :
    Size (ExtendCapacity new_contents b) = Size b ∧
    (ExtendCapacity new_contents b).contents_ ≤ (ExtendCapacity new_contents b).cursor_ ∧
    (ExtendCapacity new_contents b).cursor_ < (ExtendCapacity new_contents b).limit_ ∧
    (∀ i : Nat, (i : Int) < Size b →
      (ExtendCapacity new_contents b).memory ((ExtendCapacity new_contents b).contents_ + i) =
        b.memory (b.contents_ + i)) := by
  obtain ⟨h1, h2⟩ := hinv
  simp only [kMinimumGap] at h2
  refine ⟨?_, ?_, ?_, ?_⟩
  · simp only [ExtendCapacity, Size]; omega
  · simp only [ExtendCapacity, Size]; omega
  · simp only [ExtendCapacity, Size, ComputeLimit, kMinimumGap]; omega
  · intro i hi
    have hc : new_contents ≤ new_contents + i ∧
        ((new_contents + i : Nat) : Int) < (new_contents : Int) + Size b := by
      constructor
      · omega
      · rw [Nat.cast_add]; omega
    simp only [ExtendCapacity, if_pos hc, Nat.add_sub_cancel_left]

theorem limit_past_cursor (s : AssemblerBuffer) (h : s.contents_ ≤ s.cursor_) :
    ({ s with limit_ := s.cursor_ + 4096 } : AssemblerBuffer).contents_ ≤
        ({ s with limit_ := s.cursor_ + 4096 } : AssemblerBuffer).cursor_ ∧
      ({ s with limit_ := s.cursor_ + 4096 } : AssemblerBuffer).cursor_ <
        ({ s with limit_ := s.cursor_ + 4096 } : AssemblerBuffer).limit_ :=
  ⟨h, Nat.lt_add_of_pos_right (by decide)⟩

/-- Witness for C7: two instructions of 5 and 32 bytes emitted into a fresh buffer of capacity
36, with a growth that moves the limit 4096 bytes past the cursor. -/
theorem capacity_safety_witness :
    ∃ b1 steps,
      emitInstructions (fun s => { s with limit_ := s.cursor_ + 4096 })
        [[(4, 0xAABBCCDD), (1, 0x90)], [(8, 1), (8, 2), (8, 3), (8, 4)]]
        (new 4096 36 zeroMemory idleZone) = some (b1, steps) ∧
      CursorInvariant b1 ∧ steps.length = 6 ∧
      ∀ e ∈ steps, e.WritesWithin ∧ CursorInvariant e.after ∧
        ∀ a : Nat, a < e.before.contents_ ∨ (e.before.limit_ : Int) + kMinimumGap ≤ a →
          e.after.memory a = e.before.memory a :=
  capacity_safety (fun s => { s with limit_ := s.cursor_ + 4096 })
    [[(4, 0xAABBCCDD), (1, 0x90)], [(8, 1), (8, 2), (8, 3), (8, 4)]]
    (new 4096 36 zeroMemory idleZone)
    (fun s h _ => limit_past_cursor s h)
    (by decide)
    (by simp [CursorInvariant, new, ComputeLimit, kMinimumGap])

/-- C8: the non-debug `EnsureCapacity` constructor invokes `ExtendCapacity` exactly when
`cursor_ ≥ limit_`: whatever `ExtendCapacity` does, the resulting buffer is its result when
`cursor_ ≥ limit_` and the unchanged buffer, every field included, when `cursor_ < limit_`,
and in no other case is it either of them for every `ExtendCapacity`. -/
theorem EnsureCapacity_extends_iff (b : AssemblerBuffer) :
    ((∀ ext : AssemblerBuffer → AssemblerBuffer, EnsureCapacity ext b = ext b) ↔
      b.cursor_ ≥ b.limit_) ∧
    ((∀ ext : AssemblerBuffer → AssemblerBuffer, EnsureCapacity ext b = b) ↔
      b.cursor_ < b.limit_) := by
  constructor
  · constructor
    · intro h
      by_contra hc
      have hc1 : ¬ (cursor b ≥ limit b) := hc
      have h1 := h (fun s => { s with limit_ := s.limit_ + 1 })
      simp only [EnsureCapacity, if_neg hc1] at h1
      have h2 := congrArg AssemblerBuffer.limit_ h1
      simp at h2
    · intro hc ext
      have hc1 : cursor b ≥ limit b := hc
      simp only [EnsureCapacity, if_pos hc1]
  · constructor
    · intro h
      by_contra hc
      have hc1 : cursor b ≥ limit b := by simp only [cursor, limit]; omega
      have h1 := h (fun s => { s with limit_ := s.limit_ + 1 })
      simp only [EnsureCapacity, if_pos hc1] at h1
      have h2 := congrArg AssemblerBuffer.limit_ h1
      simp at h2
    · intro hc ext
      have hc1 : ¬ (cursor b ≥ limit b) := by simp only [cursor, limit]; omega
      simp only [EnsureCapacity, if_neg hc1]

/-! ## Finalization -/

theorem IsChain_unique (z : Nat → AssemblerFixup) :
    ∀ (l1 l2 : List Nat) (p : Option Nat), IsChain z p l1 → IsChain z p l2 → l1 = l2 := by
  intro l1
  induction l1 with
  | nil =>
    intro l2 p h1 h2
    cases l2 with
    | nil => rfl
    | cons g gs =>
      have h3 : p = none := h1
      have h4 : p = some g := h2.1
      rw [h3] at h4
      cases h4
  | cons f fs ih =>
    intro l2 p h1 h2
    cases l2 with
    | nil =>
      have h3 : p = none := h2
      have h4 : p = some f := h1.1
      rw [h3] at h4
      cases h4
    | cons g gs =>
      have h3 : p = some f := h1.1
      have h4 : p = some g := h2.1
      rw [h3, Option.some.injEq] at h4
      subst h4
      rw [ih gs _ h1.2 h2.2]

theorem IsChain_suffix (z : Nat → AssemblerFixup) :
    ∀ (l1 l2 : List Nat) (p : Option Nat), IsChain z p (l1 ++ l2) → ∃ q, IsChain z q l2 := by
  intro l1
  induction l1 with
  | nil => intro l2 p h; exact ⟨p, h⟩
  | cons f fs ih => intro l2 p h; exact ih l2 _ h.2

theorem IsChain_nodup (z : Nat → AssemblerFixup) :
    ∀ (l : List Nat) (p : Option Nat), IsChain z p l → l.Nodup := by
  intro l
  induction l with
  | nil => intro _ _; exact List.nodup_nil
  | cons f fs ih =>
    intro p h
    refine List.nodup_cons.2 ⟨?_, ih _ h.2⟩
    intro hmem
    obtain ⟨a, c, hfs⟩ := List.append_of_mem hmem
    have h2 : IsChain z (z f).previous (a ++ f :: c) := hfs ▸ h.2
    obtain ⟨q, hq⟩ := IsChain_suffix z a (f :: c) _ h2
    have h3 : fs = c := IsChain_unique z fs c _ h.2 hq.2
    have h4 := congrArg List.length hfs
    rw [h3] at h4
    simp at h4
    omega

theorem ProcessFixupsLoop_chain (z : Nat → AssemblerFixup) :
    ∀ (l : List Nat) (fuel : Nat) (p : Option Nat) (region : MemoryRegion),
      IsChain z p l → l.length ≤ fuel →
      ProcessFixupsLoop z fuel p region =
        some (l.foldl (fun r f => (z f).Process r (z f).position) region,
          l.map (fun f => (f, (z f).position))) := by
  intro l
  induction l with
  | nil =>
    intro fuel p region h _
    have h1 : p = none := h
    subst h1
    cases fuel <;> rfl
  | cons f fs ih =>
    intro fuel p region h hfuel
    have h1 : p = some f := h.1
    subst h1
    cases fuel with
    | zero => simp at hfuel
    | succ k =>
      have h2 := ih k (z f).previous ((z f).Process region (z f).position) h.2
        (by simpa using hfuel)
      simp only [ProcessFixupsLoop, h2, List.foldl_cons, List.map_cons]

/-- C9: for a buffer whose fixup chain is `chain`, given fuel for the walk, a destination of at
least `Size()` bytes and (in the debug configuration) fixups not yet processed,
`FinalizeInstructions(region)` returns; the first `Size()` bytes of the destination are the
bytes of the buffer and its other bytes, base and size are as before the copy; `Process` is
then invoked with `(region, f.position)` once for each fixup `f` of the chain, in chain order
from the head, the final region being the result of these invocations in that order; the
fixups are marked processed in the debug configuration, and no other field, in particular the
bytes and `Size()`, is changed. -/
theorem FinalizeInstructions_copies_and_processes (debug : Bool) (fuel : Nat)
    (region : MemoryRegion) (b : AssemblerBuffer) (chain : List Nat)
    (hchain : IsChain b.zone b.fixup_ chain) (hfuel : chain.length ≤ fuel)
    (hsize : Size b ≤ region.size)
    (hfresh : debug = true → b.fixups_processed_ = false) :
    ∃ b1 region1 calls,
      FinalizeInstructions debug fuel region b = some (b1, region1, calls) ∧
      (∀ i : Nat, (i : Int) < Size b →
        (CopyInstructions region b).bytes i = b.memory (b.contents_ + i)) ∧
      (∀ i : Nat, Size b ≤ (i : Int) → (CopyInstructions region b).bytes i = region.bytes i) ∧
      (CopyInstructions region b).pointer = region.pointer ∧
      (CopyInstructions region b).size = region.size ∧
      calls = chain.map (fun f => (f, (b.zone f).position)) ∧
      chain.Nodup ∧
      region1 = chain.foldl (fun r f => (b.zone f).Process r (b.zone f).position)
        (CopyInstructions region b) ∧
      b1 = { b with fixups_processed_ := if debug then true else b.fixups_processed_ } ∧
      (debug = true → b1.fixups_processed_ = true) ∧
      b1.memory = b.memory ∧ Size b1 = Size b ∧ b1.zone = b.zone ∧ b1.fixup_ = b.fixup_ := by
  have hguard : ¬ (debug = true ∧ b.fixups_processed_ = true) := by
    rintro ⟨h1, h2⟩
    rw [hfresh h1] at h2
    cases h2
  have hloop := ProcessFixupsLoop_chain b.zone chain fuel b.fixup_
    (CopyInstructions region b) hchain hfuel
  refine ⟨{ b with fixups_processed_ := if debug then true else b.fixups_processed_ },
    chain.foldl (fun r f => (b.zone f).Process r (b.zone f).position)
      (CopyInstructions region b),
    chain.map (fun f => (f, (b.zone f).position)), ?_, ?_, ?_, rfl, rfl, rfl,
    IsChain_nodup b.zone chain _ hchain, rfl, rfl, ?_, rfl, rfl, rfl, rfl⟩
  · simp only [FinalizeInstructions, if_neg hguard, if_pos hsize, ProcessFixups, hloop]
  · intro i hi
    simp only [CopyInstructions, if_pos hi]
  · intro i hi
    have hi1 : ¬ ((i : Int) < Size b) := by omega
    simp only [CopyInstructions, if_neg hi1]
  · intro hd
    simp [hd]

/-- Witness for C9: finalizing a buffer of 8 bytes with the chain fixup 2, fixup 1 into a
region of 16 bytes, in the debug configuration. -/
theorem FinalizeInstructions_copies_and_processes_witness :
    ∃ b1 region1 calls,
      FinalizeInstructions true 2 zeroRegion twoFixupBuffer = some (b1, region1, calls) ∧
      calls = [(2, 4), (1, 0)] ∧ b1.fixups_processed_ = true ∧
      region1.bytes 4 = 2 ∧ region1.bytes 0 = 1 := by
  obtain ⟨b1, region1, calls, h1, _, _, _, _, h2, _, h3, _, h4, _⟩ :=
    FinalizeInstructions_copies_and_processes true 2 zeroRegion twoFixupBuffer [2, 1]
      ⟨rfl, rfl, rfl⟩ (by decide) (by decide) (fun _ => rfl)
  refine ⟨b1, region1, calls, h1, ?_, h4 rfl, ?_, ?_⟩
  · rw [h2]; rfl
  · rw [h3]; rfl
  · rw [h3]; rfl

/-- C10: in the debug configuration, when a call of `FinalizeInstructions` returns,
`fixups_processed_` was false before it and is true after it, and every further call of
`FinalizeInstructions` on the resulting buffer, whatever the fuel and the region, fails its
assertion, producing no region and invoking no `Process`; a fresh buffer has
`fixups_processed_` false, and `Emit`, `Remit`, `Load`, `Store` and `EmitFixup` leave it as
it is. -/
theorem FinalizeInstructions_once (fuel : Nat) (region : MemoryRegion) (b : AssemblerBuffer)
    (hrun : (FinalizeInstructions true fuel region b).isSome = true) :
    ∃ b1 region1 calls,
      FinalizeInstructions true fuel region b = some (b1, region1, calls) ∧
      b.fixups_processed_ = false ∧ b1.fixups_processed_ = true ∧
      (∀ fuel2 region2, FinalizeInstructions true fuel2 region2 b1 = none) ∧
      (∀ data capacity memory zone, (new data capacity memory zone).fixups_processed_ = false) ∧
      (∀ debug c s s1, Call.run debug c s = some s1 →
        s1.fixups_processed_ = s.fixups_processed_) ∧
      (∀ f s, (EmitFixup f s).fixups_processed_ = s.fixups_processed_) := by
  have hfresh : b.fixups_processed_ = false := by
    cases hp : b.fixups_processed_ with
    | false => rfl
    | true => simp [FinalizeInstructions, hp] at hrun
  cases hres : FinalizeInstructions true fuel region b with
  | none => simp [hres] at hrun
  | some res =>
    obtain ⟨b1, region1, calls⟩ := res
    have hb1 : b1.fixups_processed_ = true := by
      simp only [FinalizeInstructions, hfresh] at hres
      split at hres
      · cases hres
      · split at hres
        · split at hres
          · cases hres
          · simp only [Option.some.injEq, Prod.mk.injEq] at hres
            rw [← hres.1]
            rfl
        · cases hres
    refine ⟨b1, region1, calls, rfl, hfresh, hb1, ?_, fun _ _ _ _ => rfl, ?_, fun _ _ => rfl⟩
    · intro fuel2 region2
      simp [FinalizeInstructions, hb1]
    · intro debug c s s1 h
      cases c with
      | Emit n v =>
        by_cases hc : HasEnsuredCapacity debug s = true
        · simp only [Call.run, Emit, if_pos hc, Option.some.injEq] at h
          subst h; rfl
        · simp [Call.run, Emit, if_neg hc] at h
      | Remit n =>
        by_cases hc : Size s ≥ (n : Int)
        · simp only [Call.run, Remit, if_pos hc, Option.some.injEq] at h
          subst h; rfl
        · simp [Call.run, Remit, if_neg hc] at h
      | Load n p => rw [Load_run debug n p s s1 h]
      | Store n p v =>
        by_cases hc : p ≥ 0 ∧ p ≤ Size s - n
        · simp only [Call.run, Store, if_pos hc, Option.some.injEq] at h
          subst h; rfl
        · simp [Call.run, Store, if_neg hc] at h

/-- Witness for C10: the first finalization of a buffer with two fixups. -/
theorem FinalizeInstructions_once_witness :
    ∃ b1 region1 calls,
      FinalizeInstructions true 2 zeroRegion twoFixupBuffer = some (b1, region1, calls) ∧
      b1.fixups_processed_ = true ∧
      ∀ fuel2 region2, FinalizeInstructions true fuel2 region2 b1 = none := by
  obtain ⟨b1, region1, calls, h1, _, h2, h3, _⟩ :=
    FinalizeInstructions_once 2 zeroRegion twoFixupBuffer (by decide)
  exact ⟨b1, region1, calls, h1, h2, h3⟩

/-! ## Pointer offsets -/

theorem EmitObject_some (debug : Bool) (w object : Nat) (b b1 : AssemblerBuffer)
    (h : EmitObject debug w object b = some b1) :
    Size b1 = Size b + w ∧ b1.pointer_offsets_ = b.pointer_offsets_ ++ [Size b] ∧
      b1.zone = b.zone ∧ b1.fixup_ = b.fixup_ := by
  by_cases hc : HasEnsuredCapacity debug b = true
  · simp only [EmitObject, Emit, if_pos hc, Option.some.injEq] at h
    subst h
    refine ⟨?_, rfl, rfl, rfl⟩
    simp only [Size]; push_cast; ring
  · simp [EmitObject, Emit, if_neg hc] at h

theorem Call_run_fields (debug : Bool) (c : Call) (b b1 : AssemblerBuffer)
    (h : c.run debug b = some b1) :
    b1.pointer_offsets_ = b.pointer_offsets_ ∧ b1.zone = b.zone ∧ b1.fixup_ = b.fixup_ ∧
      b1.contents_ = b.contents_ ∧ b1.limit_ = b.limit_ := by
  cases c with
  | Emit n v =>
    by_cases hc : HasEnsuredCapacity debug b = true
    · simp only [Call.run, Emit, if_pos hc, Option.some.injEq] at h
      subst h; exact ⟨rfl, rfl, rfl, rfl, rfl⟩
    · simp [Call.run, Emit, if_neg hc] at h
  | Remit n =>
    by_cases hc : Size b ≥ (n : Int)
    · simp only [Call.run, Remit, if_pos hc, Option.some.injEq] at h
      subst h; exact ⟨rfl, rfl, rfl, rfl, rfl⟩
    · simp [Call.run, Remit, if_neg hc] at h
  | Load n p =>
    rw [Load_run debug n p b b1 h]
    exact ⟨rfl, rfl, rfl, rfl, rfl⟩
  | Store n p v =>
    by_cases hc : p ≥ 0 ∧ p ≤ Size b - n
    · simp only [Call.run, Store, if_pos hc, Option.some.injEq] at h
      subst h; exact ⟨rfl, rfl, rfl, rfl, rfl⟩
    · simp [Call.run, Store, if_neg hc] at h

theorem Op_run_pointer_offsets (debug : Bool) (o : Op) (b b1 : AssemblerBuffer)
    (h : o.run debug b = some b1) : b1.pointer_offsets_ = b.pointer_offsets_ := by
  cases o with
  | call c => exact (Call_run_fields debug c b b1 h).1
  | EmitFixup f =>
    simp only [Op.run, Option.some.injEq] at h
    subst h; rfl

theorem Call_run_Size_le (debug : Bool) (c : Call) (b b1 : AssemblerBuffer)
    (hc : (Op.call c).isRemit = false) (h : c.run debug b = some b1) : Size b ≤ Size b1 := by
  cases c with
  | Emit n v => have := Emit_Size debug n v b b1 h; omega
  | Store n p v => have := Store_Size n p v b b1 h; omega
  | Remit n => simp [Op.isRemit] at hc
  | Load n p => rw [Load_run debug n p b b1 h]

theorem Op_run_Size_le (debug : Bool) (o : Op) (b b1 : AssemblerBuffer)
    (hc : o.isRemit = false) (h : o.run debug b = some b1) : Size b ≤ Size b1 := by
  cases o with
  | call c => exact Call_run_Size_le debug c b b1 hc h
  | EmitFixup f =>
    simp only [Op.run, Option.some.injEq] at h
    subst h; exact le_refl _

theorem runSteps_pointer_offsets (debug : Bool) (w : Nat) :
    ∀ (sts : List Step) (b b1 : AssemblerBuffer), runSteps debug w sts b = some b1 →
      b1.pointer_offsets_ = b.pointer_offsets_ ++ sizesBeforeEmitObject debug w sts b ∧
      (sizesBeforeEmitObject debug w sts b).length = countEmitObject sts := by
  intro sts
  induction sts with
  | nil =>
    intro b b1 h
    simp only [runSteps, Option.some.injEq] at h
    subst h
    simp [sizesBeforeEmitObject, countEmitObject]
  | cons st sts ih =>
    intro b b1 h
    cases hstep : st.run debug w b with
    | none => simp [runSteps, hstep] at h
    | some b2 =>
      simp only [runSteps, hstep] at h
      obtain ⟨h1, h2⟩ := ih b2 b1 h
      cases st with
      | op o =>
        have h3 := Op_run_pointer_offsets debug o b b2 hstep
        simp only [sizesBeforeEmitObject, hstep, countEmitObject]
        exact ⟨by rw [h1, h3], h2⟩
      | EmitObject object =>
        have h3 := (EmitObject_some debug w object b b2 hstep).2.1
        simp only [sizesBeforeEmitObject, hstep, countEmitObject, List.length_cons]
        exact ⟨by rw [h1, h3, List.append_assoc]; rfl, by rw [h2]⟩

theorem sizesBeforeEmitObject_increasing (debug : Bool) (w : Nat) (hw : 0 < w) :
    ∀ (sts : List Step) (b : AssemblerBuffer), (∀ st ∈ sts, st.isRemit = false) →
      (∀ x ∈ sizesBeforeEmitObject debug w sts b, Size b ≤ x) ∧
      (sizesBeforeEmitObject debug w sts b).Pairwise (fun x y => x < y) := by
  intro sts
  induction sts with
  | nil => intro b _; simp [sizesBeforeEmitObject]
  | cons st sts ih =>
    intro b hsts
    have hrest : ∀ st1 ∈ sts, st1.isRemit = false :=
      fun st1 h1 => hsts st1 (List.mem_cons_of_mem st h1)
    cases hstep : st.run debug w b with
    | none => simp [sizesBeforeEmitObject, hstep]
    | some b2 =>
      obtain ⟨h1, h2⟩ := ih b2 hrest
      cases st with
      | op o =>
        have hle : Size b ≤ Size b2 :=
          Op_run_Size_le debug o b b2 (hsts (Step.op o) (List.mem_cons_self _ _)) hstep
        simp only [sizesBeforeEmitObject, hstep]
        exact ⟨fun x hx => le_trans hle (h1 x hx), h2⟩
      | EmitObject object =>
        have hsz := (EmitObject_some debug w object b b2 hstep).1
        simp only [sizesBeforeEmitObject, hstep]
        refine ⟨?_, List.pairwise_cons.2 ⟨?_, h2⟩⟩
        · intro x hx
          rcases List.mem_cons.1 hx with rfl | hx1
          · exact le_refl _
          · have := h1 x hx1; omega
        · intro x hx
          have := h1 x hx; omega

/-- C11, amended: for every sequence of calls run from a buffer without pointer offsets, whose
assertions pass, `pointer_offsets_` has exactly as many entries as the sequence has `EmitObject`
calls, and its k-th entry is the value of `Size()` immediately before the k-th `EmitObject`
call; when the sequence contains no `Remit` and the pointer width is positive, the entries are
strictly increasing. -/
theorem EmitObject_records_offsets (debug : Bool) (kWordSize : Nat) (sts : List Step)
    (b : AssemblerBuffer) (hfresh : b.pointer_offsets_ = [])
    (hrun : (runSteps debug kWordSize sts b).isSome = true) :
    ∃ b1, runSteps debug kWordSize sts b = some b1 ∧
      b1.pointer_offsets_.length = countEmitObject sts ∧
      b1.pointer_offsets_ = sizesBeforeEmitObject debug kWordSize sts b ∧
      ((∀ st ∈ sts, st.isRemit = false) → 0 < kWordSize →
        b1.pointer_offsets_.Pairwise (fun x y => x < y)) := by
  cases hres : runSteps debug kWordSize sts b with
  | none => simp [hres] at hrun
  | some b1 =>
    obtain ⟨h1, h2⟩ := runSteps_pointer_offsets debug kWordSize sts b b1 hres
    rw [hfresh, List.nil_append] at h1
    refine ⟨b1, rfl, by rw [h1, h2], h1, ?_⟩
    intro hno hw
    rw [h1]
    exact (sizesBeforeEmitObject_increasing debug kWordSize hw sts b hno).2

/-- Witness for C11: `EmitObject` with pointer width 8 on a buffer of size 8. -/
theorem EmitObject_records_offsets_witness :
    ∃ b1, runSteps false 8 [Step.EmitObject 0x1000]
        { new 4096 4096 zeroMemory idleZone with cursor_ := 4104 } = some b1 ∧
      b1.pointer_offsets_ = [8] ∧ Size b1 = 16 := by
  obtain ⟨b1, h1, _, h2, _⟩ :=
    EmitObject_records_offsets false 8 [Step.EmitObject 0x1000]
      { new 4096 4096 zeroMemory idleZone with cursor_ := 4104 } rfl (by decide)
  refine ⟨b1, h1, ?_, ?_⟩
  · rw [h2]; decide
  · simp only [runSteps, Step.run] at h1
    have h3 := (EmitObject_some false 8 0x1000 _ b1 (by
      cases h4 : EmitObject false 8 0x1000
          { new 4096 4096 zeroMemory idleZone with cursor_ := 4104 } with
      | none => rw [h4] at h1; cases h1
      | some b2 => rw [h4] at h1; simpa using h1)).1
    rw [h3]; decide

/-- C11, counterexample: with pointer width 8, `EmitObject`, `Remit` of 8 bytes, `EmitObject`
from an empty buffer leaves the pointer offsets `[0, 0]`, which are not strictly increasing. -/
theorem EmitObject_offsets_not_increasing :
    ∃ b1, runSteps false 8
        [Step.EmitObject 0x1000, Step.op (Op.call (Call.Remit 8)), Step.EmitObject 0x2000]
        (new 4096 4096 zeroMemory idleZone) = some b1 ∧
      b1.pointer_offsets_ = [0, 0] ∧ ¬ b1.pointer_offsets_.Pairwise (fun x y => x < y) := by
  refine ⟨_, rfl, ?_, ?_⟩
  · decide
  · decide

theorem CountPointerOffsetsLoop_chain (z : Nat → AssemblerFixup) :
    ∀ (l : List Nat) (fuel : Nat) (p : Option Nat), IsChain z p l → l.length ≤ fuel →
      CountPointerOffsetsLoop z fuel p =
        some ((l.filter (fun f => (z f).IsPointerOffset)).length : Int) := by
  intro l
  induction l with
  | nil =>
    intro fuel p h _
    have h1 : p = none := h
    subst h1
    cases fuel <;> rfl
  | cons f fs ih =>
    intro fuel p h hfuel
    have h1 : p = some f := h.1
    subst h1
    cases fuel with
    | zero => simp at hfuel
    | succ k =>
      have h2 := ih k (z f).previous h.2 (by simpa using hfuel)
      simp only [CountPointerOffsetsLoop, h2]
      by_cases hp : (z f).IsPointerOffset = true
      · simp [List.filter, hp]
      · simp [List.filter, hp]

/-- C12: for a buffer whose fixup chain is `chain`, `CountPointerOffsets()` returns, given fuel
for the walk, the number of fixups of the chain whose `IsPointerOffset()` is true; the member
is `const` and yields nothing but the count, so the head, the links, the positions, the bytes
and `Size()` are those of the same buffer afterwards, and every call, whatever its fuel beyond
the length of the chain, returns the same count. -/
theorem CountPointerOffsets_counts (b : AssemblerBuffer) (chain : List Nat) (fuel : Nat)
    (hchain : IsChain b.zone b.fixup_ chain) (hfuel : chain.length ≤ fuel) :
    CountPointerOffsets fuel b =
      some ((chain.filter (fun f => (b.zone f).IsPointerOffset)).length : Int) ∧
    (∀ fuel2, chain.length ≤ fuel2 → CountPointerOffsets fuel2 b = CountPointerOffsets fuel b) ∧
    (∀ count, CountPointerOffsets fuel b = some count →
      0 ≤ count ∧ count ≤ (chain.length : Int)) := by
  have h1 := CountPointerOffsetsLoop_chain b.zone chain fuel b.fixup_ hchain hfuel
  refine ⟨h1, ?_, ?_⟩
  · intro fuel2 hfuel2
    have h2 := CountPointerOffsetsLoop_chain b.zone chain fuel2 b.fixup_ hchain hfuel2
    simp only [CountPointerOffsets, h1, h2]
  · intro count hcount
    simp only [CountPointerOffsets, h1, Option.some.injEq] at hcount
    subst hcount
    have := List.length_filter_le (fun f => (b.zone f).IsPointerOffset) chain
    omega

/-- Witness for C12: a chain of three fixups, two of which produce a pointer offset. -/
theorem CountPointerOffsets_counts_witness : CountPointerOffsets 3 threeFixupBuffer = some 2 :=
  (CountPointerOffsets_counts threeFixupBuffer [3, 2, 1] 3 ⟨rfl, rfl, rfl, rfl⟩ (by decide)).1

/-! ## Order of the fixups -/

theorem MemoryRegion_ext (r1 r2 : MemoryRegion) (h1 : r1.pointer = r2.pointer)
    (h2 : r1.size = r2.size) (h3 : ∀ i, r1.bytes i = r2.bytes i) : r1 = r2 := by
  cases r1
  cases r2
  simp only [MemoryRegion.mk.injEq]
  exact ⟨h1, h2, funext h3⟩

theorem Process_commute (P1 P2 : MemoryRegion → Int → MemoryRegion) (p1 p2 : Int)
    (w1 w2 : Nat) (hdisj : p1 + (w1 : Int) ≤ p2 ∨ p2 + (w2 : Int) ≤ p1)
    (hm1 : MutatesOnlySlot P1 p1 w1) (hm2 : MutatesOnlySlot P2 p2 w2)
    (hi1 : IgnoresSlot P1 p1 w1 p2 w2) (hi2 : IgnoresSlot P2 p2 w2 p1 w1) (r : MemoryRegion) :
    P1 (P2 r p2) p1 = P2 (P1 r p1) p2 := by
  apply MemoryRegion_ext
  · rw [(hm1 _).1, (hm2 _).1, (hm2 _).1, (hm1 _).1]
  · rw [(hm1 _).2.1, (hm2 _).2.1, (hm2 _).2.1, (hm1 _).2.1]
  · intro i
    by_cases h1 : p1 ≤ (i : Int) ∧ (i : Int) < p1 + (w1 : Int)
    · have h2 : ¬ (p2 ≤ (i : Int) ∧ (i : Int) < p2 + (w2 : Int)) := by omega
      rw [(hm2 (P1 r p1)).2.2 i h2]
      exact hi1 (P2 r p2) r (hm2 r).1 (hm2 r).2.1 (hm2 r).2.2 i h1
    · rw [(hm1 (P2 r p2)).2.2 i h1]
      by_cases h2 : p2 ≤ (i : Int) ∧ (i : Int) < p2 + (w2 : Int)
      · exact (hi2 (P1 r p1) r (hm1 r).1 (hm1 r).2.1 (hm1 r).2.2 i h2).symm
      · rw [(hm2 r).2.2 i h2, (hm2 (P1 r p1)).2.2 i h2, (hm1 r).2.2 i h1]

theorem FinalizeInstructions_chain (debug : Bool) (fuel : Nat) (region : MemoryRegion)
    (b : AssemblerBuffer) (chain : List Nat) (hchain : IsChain b.zone b.fixup_ chain)
    (hfuel : chain.length ≤ fuel) (hsize : Size b ≤ region.size)
    (hfresh : debug = true → b.fixups_processed_ = false) :
    FinalizeInstructions debug fuel region b =
      some ({ b with fixups_processed_ := if debug then true else b.fixups_processed_ },
        chain.foldl (fun r f => (b.zone f).Process r (b.zone f).position)
          (CopyInstructions region b),
        chain.map (fun f => (f, (b.zone f).position))) := by
  have hguard : ¬ (debug = true ∧ b.fixups_processed_ = true) := by
    rintro ⟨h1, h2⟩
    rw [hfresh h1] at h2
    cases h2
  have hloop := ProcessFixupsLoop_chain b.zone chain fuel b.fixup_
    (CopyInstructions region b) hchain hfuel
  simp only [FinalizeInstructions, if_neg hguard, if_pos hsize, ProcessFixups, hloop]

/-- C13, amended: for two fixups whose slots `[p1, p1 + w1)` and `[p2, p2 + w2)` are disjoint,
each of which mutates only the bytes of its own slot and writes there bytes that do not depend
on the bytes of the slot of the other, finalization of the same buffer contents produces the
same destination region whether the first was attached before the second (chain second,
first) or the second before the first (chain first, second). -/
theorem fixup_order_independence (debug : Bool) (fuel : Nat) (region : MemoryRegion)
    (b : AssemblerBuffer) (zone2 : Nat → AssemblerFixup) (head2 : Option Nat) (f1 f2 : Nat)
    (w1 w2 : Nat)
    (hA : IsChain b.zone b.fixup_ [f2, f1]) (hB : IsChain zone2 head2 [f1, f2])
    (hpos1 : (zone2 f1).position = (b.zone f1).position)
    (hpos2 : (zone2 f2).position = (b.zone f2).position)
    (hproc1 : (zone2 f1).Process = (b.zone f1).Process)
    (hproc2 : (zone2 f2).Process = (b.zone f2).Process)
    (hdisj : (b.zone f1).position + (w1 : Int) ≤ (b.zone f2).position ∨
      (b.zone f2).position + (w2 : Int) ≤ (b.zone f1).position)
    (hm1 : MutatesOnlySlot (b.zone f1).Process (b.zone f1).position w1)
    (hm2 : MutatesOnlySlot (b.zone f2).Process (b.zone f2).position w2)
    (hi1 : IgnoresSlot (b.zone f1).Process (b.zone f1).position w1 (b.zone f2).position w2)
    (hi2 : IgnoresSlot (b.zone f2).Process (b.zone f2).position w2 (b.zone f1).position w1)
    (hfuel : 2 ≤ fuel) (hsize : Size b ≤ region.size)
    (hfresh : debug = true → b.fixups_processed_ = false) :
    ∃ bA rA cA bB rB cB,
      FinalizeInstructions debug fuel region b = some (bA, rA, cA) ∧
      FinalizeInstructions debug fuel region { b with zone := zone2, fixup_ := head2 } =
        some (bB, rB, cB) ∧
      rA = rB := by
  have hfA := FinalizeInstructions_chain debug fuel region b [f2, f1] hA hfuel hsize hfresh
  have hfB := FinalizeInstructions_chain debug fuel region
    { b with zone := zone2, fixup_ := head2 } [f1, f2] hB hfuel hsize hfresh
  refine ⟨_, _, _, _, _, _, hfA, hfB, ?_⟩
  simp only [List.foldl_cons, List.foldl_nil]
  show (b.zone f1).Process ((b.zone f2).Process (CopyInstructions region b)
      (b.zone f2).position) (b.zone f1).position =
    (zone2 f2).Process ((zone2 f1).Process (CopyInstructions region b) (zone2 f1).position)
      (zone2 f2).position
  rw [hproc1, hproc2, hpos1, hpos2]
  exact Process_commute _ _ _ _ w1 w2 hdisj hm1 hm2 hi1 hi2 _

theorem patchingZone_mutatesOnly (first : Bool) (second : Int) (k : Nat) (p : Int) :
    MutatesOnlySlot (patchingZone first second k).Process p 4 := by
  intro r
  refine ⟨rfl, rfl, ?_⟩
  intro i hi
  have hi1 : ¬ (p ≤ (i : Int) ∧ (i : Int) < p + 4) := hi
  show (if p ≤ (i : Int) ∧ (i : Int) < p + 4 then k else r.bytes i) = r.bytes i
  rw [if_neg hi1]

theorem patchingZone_ignores (first : Bool) (second : Int) (k : Nat) (p q : Int) (w : Nat) :
    IgnoresSlot (patchingZone first second k).Process p 4 q w := by
  intro r r1 _ _ _ i hi
  have hi1 : p ≤ (i : Int) ∧ (i : Int) < p + 4 := hi
  show (if p ≤ (i : Int) ∧ (i : Int) < p + 4 then k else r.bytes i) =
    (if p ≤ (i : Int) ∧ (i : Int) < p + 4 then k else r1.bytes i)
  rw [if_pos hi1, if_pos hi1]

/-- Witness for C13: two 4-byte relocations in the slots `[0, 4)` and `[4, 8)` of a buffer of
8 bytes, with the links of the chain in one order and in the other. -/
theorem fixup_order_independence_witness :
    ∃ bA rA cA bB rB cB,
      FinalizeInstructions true 2 zeroRegion (patchingBuffer true 4) = some (bA, rA, cA) ∧
      FinalizeInstructions true 2 zeroRegion
        { patchingBuffer true 4 with
          zone := patchingZone false 4
          fixup_ := some 1 } = some (bB, rB, cB) ∧
      rA = rB :=
  fixup_order_independence true 2 zeroRegion (patchingBuffer true 4)
    (patchingZone false 4) (some 1) 1 2 4 4
    ⟨rfl, rfl, rfl⟩ ⟨rfl, rfl, rfl⟩ rfl rfl rfl rfl (by decide)
    (patchingZone_mutatesOnly true 4 1 _) (patchingZone_mutatesOnly true 4 2 _)
    (patchingZone_ignores true 4 1 _ _ 4) (patchingZone_ignores true 4 2 _ _ 4)
    (by decide) (by decide) (fun _ => rfl)

theorem copyingZone_mutatesOnly (first : Bool) (k : Nat) (p : Int) :
    MutatesOnlySlot (copyingZone first k).Process p 4 := by
  intro r
  refine ⟨rfl, rfl, ?_⟩
  intro i hi
  have hi1 : ¬ (p ≤ (i : Int) ∧ (i : Int) < p + 4) := hi
  show (if p ≤ (i : Int) ∧ (i : Int) < p + 4 then (if k = 1 then r.bytes (i + 4) else 7)
    else r.bytes i) = r.bytes i
  rw [if_neg hi1]

/-- C13, counterexample: two fixups at different positions, each mutating only its own 4-byte
slot, whose finalization depends on the order of attachment. First, fixups 1 and 2 at
positions 0 and 2, each storing its number in its slot whatever the region holds: the slots
overlap, and offset 2 ends as 1 when fixup 1 was attached first and as 2 otherwise. Second,
fixup 1 at position 0 copying the 4 bytes after its slot and fixup 2 at position 4 storing 7:
the slots are disjoint, and offset 0 ends as 7 when fixup 1 was attached first and as 0
otherwise. -/
theorem fixup_order_dependence :
    (MutatesOnlySlot ((patchingBuffer true 2).zone 1).Process
        ((patchingBuffer true 2).zone 1).position 4 ∧
      MutatesOnlySlot ((patchingBuffer true 2).zone 2).Process
        ((patchingBuffer true 2).zone 2).position 4 ∧
      ((patchingBuffer true 2).zone 1).position = 0 ∧
      ((patchingBuffer true 2).zone 2).position = 2 ∧
      ((patchingBuffer false 2).zone 1).position = 0 ∧
      ((patchingBuffer false 2).zone 2).position = 2 ∧
      IgnoresSlot ((patchingBuffer true 2).zone 1).Process 0 4 2 4 ∧
      IgnoresSlot ((patchingBuffer true 2).zone 2).Process 2 4 0 4 ∧
      IsChain (patchingBuffer true 2).zone (patchingBuffer true 2).fixup_ [2, 1] ∧
      IsChain (patchingBuffer false 2).zone (patchingBuffer false 2).fixup_ [1, 2] ∧
      (patchingBuffer true 2).memory = (patchingBuffer false 2).memory ∧
      Size (patchingBuffer true 2) = Size (patchingBuffer false 2) ∧
      ∃ bA rA cA bB rB cB,
        FinalizeInstructions false 2 zeroRegion (patchingBuffer true 2) = some (bA, rA, cA) ∧
        FinalizeInstructions false 2 zeroRegion (patchingBuffer false 2) = some (bB, rB, cB) ∧
        rA.bytes 2 = 1 ∧ rB.bytes 2 = 2 ∧ rA ≠ rB) ∧
    (MutatesOnlySlot ((copyingBuffer true).zone 1).Process
        ((copyingBuffer true).zone 1).position 4 ∧
      MutatesOnlySlot ((copyingBuffer true).zone 2).Process
        ((copyingBuffer true).zone 2).position 4 ∧
      ((copyingBuffer true).zone 1).position = 0 ∧ ((copyingBuffer true).zone 2).position = 4 ∧
      ((copyingBuffer false).zone 1).position = 0 ∧ ((copyingBuffer false).zone 2).position = 4 ∧
      ((copyingBuffer true).zone 1).position + 4 ≤ ((copyingBuffer true).zone 2).position ∧
      IsChain (copyingBuffer true).zone (copyingBuffer true).fixup_ [2, 1] ∧
      IsChain (copyingBuffer false).zone (copyingBuffer false).fixup_ [1, 2] ∧
      (copyingBuffer true).memory = (copyingBuffer false).memory ∧
      Size (copyingBuffer true) = Size (copyingBuffer false) ∧
      ∃ bA rA cA bB rB cB,
        FinalizeInstructions false 2 zeroRegion (copyingBuffer true) = some (bA, rA, cA) ∧
        FinalizeInstructions false 2 zeroRegion (copyingBuffer false) = some (bB, rB, cB) ∧
        rA.bytes 0 = 7 ∧ rB.bytes 0 = 0 ∧ rA ≠ rB) := by
  constructor
  · refine ⟨patchingZone_mutatesOnly true 2 1 _, patchingZone_mutatesOnly true 2 2 _,
      rfl, rfl, rfl, rfl, patchingZone_ignores true 2 1 0 2 4,
      patchingZone_ignores true 2 2 2 0 4, ⟨rfl, rfl, rfl⟩, ⟨rfl, rfl, rfl⟩, rfl, rfl, ?_⟩
    refine ⟨_, _, _, _, _, _, rfl, rfl, rfl, rfl, ?_⟩
    intro h
    have h1 := congrArg (fun r => r.bytes 2) h
    revert h1
    decide
  · refine ⟨copyingZone_mutatesOnly true 1 _, copyingZone_mutatesOnly true 2 _,
      rfl, rfl, rfl, rfl, (by decide), ⟨rfl, rfl, rfl⟩, ⟨rfl, rfl, rfl⟩, rfl, rfl, ?_⟩
    refine ⟨_, _, _, _, _, _, rfl, rfl, rfl, rfl, ?_⟩
    intro h
    have h1 := congrArg (fun r => r.bytes 0) h
    revert h1
    decide

/-! ## Order of the chain -/

theorem EmitFixup_chain (b : AssemblerBuffer) (f : Nat) (l : List Nat)
    (hl : IsChain b.zone b.fixup_ l) (hnot : f ∉ l) :
    IsChain (EmitFixup f b).zone (EmitFixup f b).fixup_ (f :: l) ∧
    (∀ g, g ≠ f → (EmitFixup f b).zone g = b.zone g) ∧
    ((EmitFixup f b).zone f).position = Size b ∧ Size (EmitFixup f b) = Size b := by
  have hother : ∀ g, g ≠ f → (EmitFixup f b).zone g = b.zone g := by
    intro g hg
    simp [EmitFixup, Function.update_noteq hg]
  have hprev : ((EmitFixup f b).zone f).previous = b.fixup_ := by
    simp [EmitFixup, AssemblerFixup.previous, AssemblerFixup.set_previous,
      AssemblerFixup.set_position]
  refine ⟨⟨rfl, ?_⟩, hother, ?_, rfl⟩
  · rw [hprev]
    exact IsChain_congr b.zone _ l _ (fun g hg => hother g (fun h => hnot (h ▸ hg))) hl
  · simp [EmitFixup, AssemblerFixup.position, AssemblerFixup.set_position]

theorem attached_cons (o : Op) (os : List Op) :
    attached (o :: os) = attached [o] ++ attached os := by
  cases o with
  | call c => rfl
  | EmitFixup f => rfl

theorem Op_run_chain (debug : Bool) (o : Op) (b b1 : AssemblerBuffer) (l : List Nat)
    (h : o.run debug b = some b1) (hl : IsChain b.zone b.fixup_ l)
    (hnew : ∀ f ∈ attached [o], f ∉ l) :
    IsChain b1.zone b1.fixup_ (attached [o] ++ l) := by
  cases o with
  | call c =>
    obtain ⟨_, hz, hf, _, _⟩ := Call_run_fields debug c b b1 h
    rw [hz, hf]
    exact hl
  | EmitFixup f =>
    simp only [Op.run, Option.some.injEq] at h
    subst h
    exact (EmitFixup_chain b f l hl (hnew f (by simp [attached]))).1

theorem runOps_chain (debug : Bool) :
    ∀ (ops : List Op) (b b1 : AssemblerBuffer) (l : List Nat),
      runOps debug ops b = some b1 → IsChain b.zone b.fixup_ l → (attached ops).Nodup →
      (∀ f ∈ attached ops, f ∉ l) →
      IsChain b1.zone b1.fixup_ ((attached ops).reverse ++ l) := by
  intro ops
  induction ops with
  | nil =>
    intro b b1 l h hl _ _
    simp only [runOps, Option.some.injEq] at h
    subst h
    simpa [attached] using hl
  | cons o os ih =>
    intro b b1 l h hl hnodup hnew
    rw [attached_cons] at hnodup hnew
    cases hstep : o.run debug b with
    | none => simp [runOps, hstep] at h
    | some b2 =>
      simp only [runOps, hstep] at h
      have hl2 := Op_run_chain debug o b b2 l hstep hl
        (fun f hf => hnew f (List.mem_append_left _ hf))
      have hdisj := List.nodup_append.1 hnodup
      have h3 := ih b2 b1 (attached [o] ++ l) h hl2 hdisj.2.1 (by
        intro f hf hmem
        rcases List.mem_append.1 hmem with h4 | h4
        · exact hdisj.2.2 h4 hf
        · exact hnew f (List.mem_append_right _ hf) h4)
      rw [attached_cons, List.reverse_append, List.append_assoc]
      cases o with
      | call c => simpa [attached] using h3
      | EmitFixup f => simpa [attached] using h3

theorem walkChain_chain (z : Nat → AssemblerFixup) :
    ∀ (l : List Nat) (fuel : Nat) (p : Option Nat), IsChain z p l → l.length ≤ fuel →
      walkChain z fuel p = some l := by
  intro l
  induction l with
  | nil =>
    intro fuel p h _
    have h1 : p = none := h
    subst h1
    cases fuel <;> rfl
  | cons f fs ih =>
    intro fuel p h hfuel
    have h1 : p = some f := h.1
    subst h1
    cases fuel with
    | zero => simp at hfuel
    | succ k =>
      have h2 := ih k (z f).previous h.2 (by simpa using hfuel)
      simp only [walkChain, h2]

/-- C16: from a buffer with an empty fixup chain, after a sequence of `Emit`, `Remit`, `Load`,
`Store` and `EmitFixup` calls whose assertions pass and which attaches the fixups
`f1, ..., fn` in that order, each fixup object once, the chain from the head along the
`previous` links is exactly `fn, ..., f1` and ends at the empty link; the walk over it
terminates, visits exactly these fixups in that order, each once and none lost. -/
theorem chain_is_LIFO (debug : Bool) (ops : List Op) (b : AssemblerBuffer)
    (hempty : b.fixup_ = none) (hrun : (runOps debug ops b).isSome = true)
    (honce : (attached ops).Nodup) :
    ∃ b1, runOps debug ops b = some b1 ∧
      IsChain b1.zone b1.fixup_ (attached ops).reverse ∧
      (∀ fuel, (attached ops).length ≤ fuel →
        walkChain b1.zone fuel b1.fixup_ = some (attached ops).reverse) ∧
      (attached ops).reverse.Nodup ∧
      (∀ f, f ∈ (attached ops).reverse ↔ f ∈ attached ops) := by
  cases hres : runOps debug ops b with
  | none => simp [hres] at hrun
  | some b1 =>
    have hnil : IsChain b.zone b.fixup_ [] := hempty
    have h1 := runOps_chain debug ops b b1 [] hres hnil honce (fun _ _ h => by cases h)
    rw [List.append_nil] at h1
    refine ⟨b1, rfl, h1, ?_, List.nodup_reverse.2 honce, fun f => List.mem_reverse⟩
    intro fuel hfuel
    exact walkChain_chain b1.zone _ fuel b1.fixup_ h1 (by simpa using hfuel)

/-- Witness for C16: three fixups attached with emits, a store and a remit in between. -/
theorem chain_is_LIFO_witness :
    ∃ b1, runOps false
        [Op.EmitFixup 5, Op.call (Call.Emit 4 1), Op.EmitFixup 7, Op.call (Call.Store 2 1 9),
          Op.call (Call.Emit 4 2), Op.call (Call.Remit 4), Op.EmitFixup 6]
        (new 4096 4096 zeroMemory idleZone) = some b1 ∧
      IsChain b1.zone b1.fixup_ [6, 7, 5] ∧
      walkChain b1.zone 3 b1.fixup_ = some [6, 7, 5] := by
  obtain ⟨b1, h1, h2, h3, _⟩ :=
    chain_is_LIFO false
      [Op.EmitFixup 5, Op.call (Call.Emit 4 1), Op.EmitFixup 7, Op.call (Call.Store 2 1 9),
        Op.call (Call.Emit 4 2), Op.call (Call.Remit 4), Op.EmitFixup 6]
      (new 4096 4096 zeroMemory idleZone) rfl (by decide) (by decide)
  exact ⟨b1, h1, h2, h3 3 (by decide)⟩

/-! ## Positions of the fixups -/

theorem Call_run_Size_nonneg (debug : Bool) (c : Call) (b b1 : AssemblerBuffer)
    (h0 : 0 ≤ Size b) (h : c.run debug b = some b1) : 0 ≤ Size b1 := by
  cases c with
  | Emit n v => have := Emit_Size debug n v b b1 h; omega
  | Store n p v => have := Store_Size n p v b b1 h; omega
  | Remit n =>
    by_cases hc : Size b ≥ (n : Int)
    · have := Remit_Size n b b1 h; omega
    · simp [Call.run, Remit, if_neg hc] at h
  | Load n p => rw [Load_run debug n p b b1 h]; exact h0

theorem Op_run_positions (debug strict : Bool) (o : Op) (b b1 : AssemblerBuffer) (l : List Nat)
    (h : o.run debug b = some b1) (hnew : ∀ f ∈ attached [o], f ∉ l)
    (hstrict : strict = true → o.isRemit = false) (hinv : PositionsWithin strict b l) :
    PositionsWithin strict b1 (attached [o] ++ l) := by
  obtain ⟨h0, hpos, hs⟩ := hinv
  cases o with
  | call c =>
    obtain ⟨_, hz, _, _, _⟩ := Call_run_fields debug c b b1 h
    refine ⟨Call_run_Size_nonneg debug c b b1 h0 h, ?_, ?_⟩
    · intro f hf
      rw [hz]
      exact hpos f hf
    · intro hst
      have hle : Size b ≤ Size b1 := Call_run_Size_le debug c b b1 (hstrict hst) h
      obtain ⟨h1, h2⟩ := hs hst
      refine ⟨?_, ?_⟩
      · intro f hf
        rw [hz]
        exact le_trans (h1 f hf) hle
      · rw [hz]
        exact h2
  | EmitFixup f =>
    simp only [Op.run, Option.some.injEq] at h
    subst h
    have hnot : f ∉ l := hnew f (by simp [attached])
    have hother : ∀ g, g ≠ f → (EmitFixup f b).zone g = b.zone g := by
      intro g hg
      simp [EmitFixup, Function.update_noteq hg]
    have hf : ((EmitFixup f b).zone f).position = Size b := by
      simp [EmitFixup, AssemblerFixup.position, AssemblerFixup.set_position]
    have hl : ∀ g ∈ l, (EmitFixup f b).zone g = b.zone g :=
      fun g hg => hother g (fun hh => hnot (hh ▸ hg))
    have hsize : Size (EmitFixup f b) = Size b := rfl
    have hmap : l.map (fun g => ((EmitFixup f b).zone g).position) =
        l.map (fun g => (b.zone g).position) :=
      List.map_congr_left (fun g hg => by rw [hl g hg])
    refine ⟨by rw [hsize]; exact h0, ?_, ?_⟩
    · intro g hg
      rcases List.mem_cons.1 hg with rfl | hg1
      · rw [hf]; exact h0
      · rw [hl g hg1]; exact hpos g hg1
    · intro hst
      obtain ⟨h1, h2⟩ := hs hst
      refine ⟨?_, ?_⟩
      · intro g hg
        rcases List.mem_cons.1 hg with rfl | hg1
        · rw [hf, hsize]
        · rw [hl g hg1, hsize]; exact h1 g hg1
      · show ((f :: l).map (fun g => ((EmitFixup f b).zone g).position)).Pairwise
          (fun x y => x ≥ y)
        rw [List.map_cons, List.pairwise_cons, hmap, hf]
        refine ⟨?_, h2⟩
        intro y hy
        obtain ⟨g, hg, rfl⟩ := List.mem_map.1 hy
        exact h1 g hg

theorem runOps_positions (debug strict : Bool) :
    ∀ (ops : List Op) (b b1 : AssemblerBuffer) (l : List Nat),
      runOps debug ops b = some b1 → (attached ops).Nodup → (∀ f ∈ attached ops, f ∉ l) →
      (strict = true → ∀ o ∈ ops, o.isRemit = false) → PositionsWithin strict b l →
      PositionsWithin strict b1 ((attached ops).reverse ++ l) := by
  intro ops
  induction ops with
  | nil =>
    intro b b1 l h _ _ _ hinv
    simp only [runOps, Option.some.injEq] at h
    subst h
    simpa [attached] using hinv
  | cons o os ih =>
    intro b b1 l h hnodup hnew hstrict hinv
    rw [attached_cons] at hnodup hnew
    cases hstep : o.run debug b with
    | none => simp [runOps, hstep] at h
    | some b2 =>
      simp only [runOps, hstep] at h
      have hinv2 := Op_run_positions debug strict o b b2 l hstep
        (fun f hf => hnew f (List.mem_append_left _ hf))
        (fun hst => hstrict hst o (List.mem_cons_self o os)) hinv
      have hdisj := List.nodup_append.1 hnodup
      have h3 := ih b2 b1 (attached [o] ++ l) h hdisj.2.1 (by
        intro f hf hmem
        rcases List.mem_append.1 hmem with h4 | h4
        · exact hdisj.2.2 h4 hf
        · exact hnew f (List.mem_append_right _ hf) h4)
        (fun hst o1 ho1 => hstrict hst o1 (List.mem_cons_of_mem o ho1)) hinv2
      rw [attached_cons, List.reverse_append, List.append_assoc]
      cases o with
      | call c => simpa [attached] using h3
      | EmitFixup f => simpa [attached] using h3

/-- C18, amended: in every state reached from an empty buffer (empty chain, `Size()` zero) by
`Emit`, `Remit`, `Load`, `Store` and `EmitFixup` calls whose assertions pass and which attach
each fixup object once, every fixup of the chain has `0 ≤ position`; when no `Remit` is among
the calls, every fixup of the chain has `position ≤ Size()` as well and the positions are
non-increasing along the chain from the head to the tail. -/
theorem fixup_positions_within (debug : Bool) (ops : List Op) (b : AssemblerBuffer)
    (hempty : b.fixup_ = none) (hsize : Size b = 0)
    (hrun : (runOps debug ops b).isSome = true) (honce : (attached ops).Nodup) :
    ∃ b1 chain, runOps debug ops b = some b1 ∧ IsChain b1.zone b1.fixup_ chain ∧
      (∀ f ∈ chain, 0 ≤ (b1.zone f).position) ∧
      ((∀ o ∈ ops, o.isRemit = false) →
        (∀ f ∈ chain, (b1.zone f).position ≤ Size b1) ∧
        (chain.map (fun f => (b1.zone f).position)).Pairwise (fun x y => x ≥ y)) := by
  cases hres : runOps debug ops b with
  | none => simp [hres] at hrun
  | some b1 =>
    have hnil : IsChain b.zone b.fixup_ [] := hempty
    have h1 := runOps_chain debug ops b b1 [] hres hnil honce (fun _ _ h => by cases h)
    rw [List.append_nil] at h1
    have hinit : ∀ strict, PositionsWithin strict b [] := fun strict =>
      ⟨le_of_eq hsize.symm, fun f hf => absurd hf (List.not_mem_nil f),
        fun _ => ⟨fun f hf => absurd hf (List.not_mem_nil f), List.Pairwise.nil⟩⟩
    have hlow := runOps_positions debug false ops b b1 [] hres honce
      (fun f _ hf => absurd hf (List.not_mem_nil f)) (fun h => (by cases h)) (hinit false)
    rw [List.append_nil] at hlow
    refine ⟨b1, (attached ops).reverse, rfl, h1, hlow.2.1, ?_⟩
    intro hno
    have hstrict := runOps_positions debug true ops b b1 [] hres honce
      (fun f _ hf => absurd hf (List.not_mem_nil f)) (fun _ => hno) (hinit true)
    rw [List.append_nil] at hstrict
    exact hstrict.2.2 rfl

/-- Witness for C18: two fixups attached at sizes 4 and 12 of a growing buffer. -/
theorem fixup_positions_within_witness :
    ∃ b1 chain, runOps false
        [Op.call (Call.Emit 4 1), Op.EmitFixup 5, Op.call (Call.Emit 8 2), Op.EmitFixup 7,
          Op.call (Call.Emit 4 3)]
        (new 4096 4096 zeroMemory idleZone) = some b1 ∧
      IsChain b1.zone b1.fixup_ chain ∧
      (∀ f ∈ chain, 0 ≤ (b1.zone f).position ∧ (b1.zone f).position ≤ Size b1) ∧
      (chain.map (fun f => (b1.zone f).position)).Pairwise (fun x y => x ≥ y) := by
  obtain ⟨b1, chain, h1, h2, h3, h4⟩ :=
    fixup_positions_within false
      [Op.call (Call.Emit 4 1), Op.EmitFixup 5, Op.call (Call.Emit 8 2), Op.EmitFixup 7,
        Op.call (Call.Emit 4 3)]
      (new 4096 4096 zeroMemory idleZone) rfl (by simp [Size, new]) (by decide) (by decide)
  have h5 := h4 (by decide)
  exact ⟨b1, chain, h1, h2, fun f hf => ⟨h3 f hf, h5.1 f hf⟩, h5.2⟩

/-- C18, counterexample: after `Emit` of 8 bytes, `EmitFixup(1)` and `Remit` of 8 bytes, the
chain holds fixup 1 at position 8 while `Size()` is 0; after a further `EmitFixup(2)` the chain
is 2, 1 with positions 0, 8, increasing from the head to the tail; and after attaching fixup 1
a second time, with no `Remit`, the link from fixup 2 at position 4 leads to fixup 1 at
position 8. -/
theorem fixup_position_beyond_Size :
    (∃ b1, runOps false [Op.call (Call.Emit 8 0), Op.EmitFixup 1, Op.call (Call.Remit 8)]
        (new 4096 4096 zeroMemory idleZone) = some b1 ∧
      IsChain b1.zone b1.fixup_ [1] ∧ (b1.zone 1).position = 8 ∧ Size b1 = 0 ∧
      ¬ (b1.zone 1).position ≤ Size b1) ∧
    (∃ b2, runOps false
        [Op.call (Call.Emit 8 0), Op.EmitFixup 1, Op.call (Call.Remit 8), Op.EmitFixup 2]
        (new 4096 4096 zeroMemory idleZone) = some b2 ∧
      IsChain b2.zone b2.fixup_ [2, 1] ∧ (b2.zone 2).position = 0 ∧ (b2.zone 1).position = 8) ∧
    (∃ b3, runOps false
        [Op.EmitFixup 1, Op.call (Call.Emit 4 0), Op.EmitFixup 2, Op.call (Call.Emit 4 0),
          Op.EmitFixup 1]
        (new 4096 4096 zeroMemory idleZone) = some b3 ∧
      b3.fixup_ = some 1 ∧ (b3.zone 1).previous = some 2 ∧ (b3.zone 2).previous = some 1 ∧
      (b3.zone 2).position = 4 ∧ (b3.zone 1).position = 8) := by
  refine ⟨⟨_, rfl, ⟨rfl, rfl⟩, rfl, rfl, by decide⟩, ⟨_, rfl, ⟨rfl, rfl, rfl⟩, rfl, rfl⟩,
    ⟨_, rfl, rfl, rfl, rfl, rfl, rfl⟩⟩

/-! ## Limit and capacity -/

/-- C17: for every data address `d` and capacity `c ≥ kMinimumGap`, a buffer with
`contents_ = d` and `limit_ = ComputeLimit(d, c)` has `limit_ = d + c - kMinimumGap`,
`limit_ ≥ contents_`, `limit_ + kMinimumGap = d + c`, and `Capacity()` passes its assertion
and returns `c`. -/
theorem ComputeLimit_Capacity (d : Nat) (c : Int) (b : AssemblerBuffer)
    (hc : kMinimumGap ≤ c) (hcontents : b.contents_ = d) (hlimit : b.limit_ = ComputeLimit d c) :
    (b.limit_ : Int) = (d : Int) + c - kMinimumGap ∧
    b.limit_ ≥ b.contents_ ∧
    (b.limit_ : Int) + kMinimumGap = (d : Int) + c ∧
    Capacity b = some c ∧ kMinimumGap = 32 := by
  have h1 : (b.limit_ : Int) = (d : Int) + c - kMinimumGap := by
    rw [hlimit, ComputeLimit]
    simp only [kMinimumGap] at hc ⊢
    omega
  have h2 : b.limit_ ≥ b.contents_ := by
    rw [hcontents]
    simp only [kMinimumGap] at hc h1
    omega
  refine ⟨h1, h2, by omega, ?_, rfl⟩
  simp only [Capacity, if_pos h2, Option.some.injEq]
  rw [h1, hcontents]
  ring

/-- Witness for C17: the data area of 4096 bytes at address 4096 of a fresh buffer. -/
theorem ComputeLimit_Capacity_witness :
    ((new 4096 4096 zeroMemory idleZone).limit_ : Int) = 4096 + 4096 - 32 ∧
    Capacity (new 4096 4096 zeroMemory idleZone) = some 4096 := by
  obtain ⟨h1, _, _, h2, _⟩ :=
    ComputeLimit_Capacity 4096 4096 (new 4096 4096 zeroMemory idleZone) (by decide) rfl rfl
  exact ⟨h1, h2⟩

/-! ## Frame of a store, reading the pointer offsets -/

/-- C19: a `Store<T>(p, v)` at a valid position succeeds and changes only the `sizeof(T)`
bytes at offsets `[p, p + sizeof(T))`: `Size()`, `contents_`, `cursor_`, `limit_`, the fixup
chain and the pointer offsets are unchanged, every byte outside that range is unchanged, and
for every width and every position `q` whose range is disjoint from it, `Load<U>(q)` gives the
same result before and after the store. -/
theorem Store_frame (b : AssemblerBuffer) (sizeofT : Nat) (p : Int) (value : Nat)
    (hpos : 0 ≤ p ∧ p ≤ Size b - sizeofT) :
    ∃ b1, Store sizeofT p value b = some b1 ∧
      Size b1 = Size b ∧ b1.contents_ = b.contents_ ∧ b1.cursor_ = b.cursor_ ∧
      b1.limit_ = b.limit_ ∧ b1.fixup_ = b.fixup_ ∧ b1.zone = b.zone ∧
      b1.pointer_offsets_ = b.pointer_offsets_ ∧
      (∀ a : Nat, a < b.contents_ + p.toNat ∨ b.contents_ + p.toNat + sizeofT ≤ a →
        b1.memory a = b.memory a) ∧
      (∀ i : Nat, (i : Int) < p ∨ p + sizeofT ≤ (i : Int) →
        b1.memory (b.contents_ + i) = b.memory (b.contents_ + i)) ∧
      (∀ (sizeofU : Nat) (q : Int), q + sizeofU ≤ p ∨ p + sizeofT ≤ q →
        Load sizeofU q b1 = Load sizeofU q b) := by
  have hpos1 : p ≥ 0 ∧ p ≤ Size b - sizeofT := hpos
  have hframe : ∀ a : Nat, a < b.contents_ + p.toNat ∨ b.contents_ + p.toNat + sizeofT ≤ a →
      writeBytes b.memory (b.contents_ + p.toNat) sizeofT value a = b.memory a :=
    fun a ha => writeBytes_outside b.memory _ sizeofT value a ha
  refine ⟨{ b with memory := writeBytes b.memory (b.contents_ + p.toNat) sizeofT value },
    by simp only [Store]; rw [if_pos hpos1], rfl, rfl, rfl, rfl, rfl, rfl, rfl, hframe, ?_, ?_⟩
  · intro i hi
    exact hframe (b.contents_ + i) (by omega)
  · intro sizeofU q hq
    by_cases hv : q ≥ 0 ∧ q ≤ Size b - sizeofU
    · have hv1 : q ≥ 0 ∧ q ≤
          Size { b with memory := writeBytes b.memory (b.contents_ + p.toNat) sizeofT value } -
            sizeofU := hv
      simp only [Load, if_pos hv, if_pos hv1, Option.some.injEq]
      apply readBytes_congr
      intro a ha1 ha2
      exact hframe a (by omega)
    · have hv1 : ¬ (q ≥ 0 ∧ q ≤
          Size { b with memory := writeBytes b.memory (b.contents_ + p.toNat) sizeofT value } -
            sizeofU) := hv
      simp only [Load, if_neg hv, if_neg hv1]

/-- Witness for C19: a 2-byte store at offset 2 of a buffer holding 8 bytes. -/
theorem Store_frame_witness :
    ∃ b1, Store 2 2 0xBEEF { new 4096 4096 zeroMemory idleZone with cursor_ := 4104 } = some b1 ∧
      Size b1 = 8 ∧ Load 2 0 b1 = some 0 ∧ Load 4 4 b1 = some 0 := by
  obtain ⟨b1, h1, h2, _, _, _, _, _, _, _, _, h3⟩ :=
    Store_frame { new 4096 4096 zeroMemory idleZone with cursor_ := 4104 } 2 2 0xBEEF
      (by simp [Size, new])
  refine ⟨b1, h1, ?_, ?_, ?_⟩
  · rw [h2]; simp [Size, new]
  · rw [h3 2 0 (by decide)]; decide
  · rw [h3 4 4 (by decide)]; decide

/-- C20: in the debug configuration `pointer_offsets()` passes its assertion exactly when
`fixups_processed_` is true, and fails it for a buffer that has not been finalized, a fresh
buffer among them, while after a finalization that returns it yields the list; in the non-debug
configuration it returns the list in every state. -/
theorem pointer_offsets_guard (b : AssemblerBuffer) :
    ((pointer_offsets true b).isSome = true ↔ b.fixups_processed_ = true) ∧
    (b.fixups_processed_ = true → pointer_offsets true b = some b.pointer_offsets_) ∧
    (b.fixups_processed_ = false → pointer_offsets true b = none) ∧
    pointer_offsets false b = some b.pointer_offsets_ ∧
    (∀ data capacity memory zone, pointer_offsets true (new data capacity memory zone) = none) ∧
    (∀ fuel region b1 region1 calls,
      FinalizeInstructions true fuel region b = some (b1, region1, calls) →
      pointer_offsets true b1 = some b.pointer_offsets_) := by
  refine ⟨?_, ?_, ?_, ?_, ?_, ?_⟩
  · cases hp : b.fixups_processed_ <;> simp [pointer_offsets, hp]
  · intro hp; simp [pointer_offsets, hp]
  · intro hp; simp [pointer_offsets, hp]
  · simp [pointer_offsets]
  · intro data capacity memory zone
    simp [pointer_offsets, new]
  · intro fuel region b1 region1 calls h
    simp only [FinalizeInstructions] at h
    split at h
    · cases h
    · split at h
      · split at h
        · cases h
        · simp only [Option.some.injEq, Prod.mk.injEq] at h
          rw [← h.1]
          simp [pointer_offsets]
      · cases h

end AssemblerBuffer

namespace ExternalLabel

/-! ## External labels -/

theorem new_some (n : Option String) (a : Nat) (l : ExternalLabel) (h : new n a = some l) :
    n ≠ none ∧ l = { name_ := n, address_ := a } := by
  by_cases hn : n ≠ none
  · simp only [new, if_pos hn, Option.some.injEq] at h
    exact ⟨hn, h.symm⟩
  · simp [new, if_neg hn] at h

/-- C14: for a label constructed with name `n` and address `a`, `is_resolved()` is true exactly
when `a ≠ 0`; `address()` returns `a` when `a ≠ 0` and fails its assertion, returning no
value, when `a = 0`; `name()` returns `n`; the fields hold `n` and `a`, and the three members,
all `const`, yield values and no changed label. -/
theorem accessors (n : Option String) (a : Nat) (l : ExternalLabel)
    (h : new n a = some l) :
    (is_resolved l = true ↔ a ≠ 0) ∧
    (a ≠ 0 → address l = some a) ∧
    (a = 0 → address l = none) ∧
    name l = n ∧ l.name_ = n ∧ l.address_ = a := by
  obtain ⟨_, hl⟩ := new_some n a l h
  subst hl
  refine ⟨?_, ?_, ?_, rfl, rfl, rfl⟩
  · simp [is_resolved]
  · intro ha
    simp [address, is_resolved, ha]
  · intro ha
    simp [address, is_resolved, ha]

/-- Witness for C14: a label for a runtime entry at address `0x1000`. -/
theorem accessors_witness :
    (is_resolved { name_ := some "entry", address_ := 0x1000 } = true ↔ 0x1000 ≠ 0) ∧
    address { name_ := some "entry", address_ := 0x1000 } = some 0x1000 ∧
    name { name_ := some "entry", address_ := 0x1000 } = some "entry" :=
  ⟨(accessors (some "entry") 0x1000 { name_ := some "entry", address_ := 0x1000 } rfl).1,
    (accessors (some "entry") 0x1000 { name_ := some "entry", address_ := 0x1000 } rfl).2.1
      (by decide),
    (accessors (some "entry") 0x1000 { name_ := some "entry", address_ := 0x1000 } rfl).2.2.2.1⟩

/-- C15, amended: the constructor completes exactly when the name is not `NULL`, and then
`name()` is the name given, which is not `NULL`; a missing name is rejected and every string,
the empty one included, is accepted. -/
theorem name_not_null (n : Option String) (a : Nat) :
    ((new n a).isSome = true ↔ n ≠ none) ∧
    (∀ l, new n a = some l → name l = n ∧ name l ≠ none) ∧
    new none a = none ∧
    (∀ s : String, ∃ l, new (some s) a = some l ∧ name l = some s) := by
  refine ⟨?_, ?_, rfl, ?_⟩
  · by_cases hn : n ≠ none
    · simp only [new, if_pos hn, Option.isSome_some, true_iff]; exact hn
    · simp only [new, if_neg hn, Option.isSome_none]
      exact ⟨fun hh => (by cases hh), fun h1 => absurd h1 hn⟩
  · intro l hl
    obtain ⟨hn, hl1⟩ := new_some n a l hl
    subst hl1
    exact ⟨rfl, hn⟩
  · intro s
    exact ⟨{ name_ := some s, address_ := a }, rfl, rfl⟩

/-- C15, counterexample: the constructor completes for the empty name, and `name()` is then
the empty string. -/
theorem empty_name_accepted :
    ∃ l, new (some "") 0x1000 = some l ∧ name l = some "" ∧ "".length = 0 :=
  ⟨{ name_ := some "", address_ := 0x1000 }, rfl, rfl, rfl⟩

end ExternalLabel

end dart
